import Mathlib

/-!
# AudioBlob: the SBSMS JNI wrapper (`jni/samplecount.h`, `jni/jsbsms.cpp`)

A shallow embedding of the sample-count arithmetic, the per-sample rate curve,
the block sizer, the source-reader callback `resampleCB` and the drain loop of
`process`, followed by the properties proved about them.

Data model of the target: LP64 (`size_t` and `long` are 64 bits wide, `int` is
32 bits wide, `long long` is 64 bits wide as the header asserts).  Machine
integers are mathematical integers reduced explicitly modulo `2 ^ 64` or
`2 ^ 32` at every place where the C++ code converts or computes.

Floating-point values are kept abstract: the float and double types are type
parameters `F` and `D`, and the operations the code performs on them are the
fields of `FloatOps`.  Two instances are given over the rationals: `exactOps`
(no rounding) and `binary32Ops` (every `float` result rounded to the nearest
binary32 value, ties to even).

The type `audio` of a frame is declared in the SBSMS library header, outside
these sources, as an array of floats (`float[2]` there).  Its number of elements
is the parameter `w` of every definition that touches an array of frames; such
an array is the sequence of its floats, frame after frame, and `buf[i][c]` is
the float at position `w * i + c`.

Memory accesses outside an array are undefined in C++; the embedding makes them
total (a read outside yields no value, a write outside is dropped) and every
statement about array contents carries the bounds that keep the accesses inside.
-/

namespace AudioBlob

/-! ## Machine integers -/

/-- Conversion of an integer to a signed 64-bit value (`long long`, `long`):
reduction modulo `2 ^ 64` into `[-2 ^ 63, 2 ^ 63)`. -/
def wrap64 (v : Int) : Int := (v + 2 ^ 63) % 2 ^ 64 - 2 ^ 63

/-- Conversion of an integer to a signed 32-bit value (`int`). -/
def wrap32 (v : Int) : Int := (v + 2 ^ 31) % 2 ^ 32 - 2 ^ 31

/-- Conversion of an integer to `size_t`: reduction modulo `2 ^ 64`. -/
def toSizeT (v : Int) : Nat := (v % 2 ^ 64).toNat

/-! ## `sampleCount` (samplecount.h) -/

/-- The class `sampleCount`: one private member `value` of type `long long`. -/
structure sampleCount where
  value : Int
deriving DecidableEq, Repr

namespace sampleCount

/-- Constructor `sampleCount(unsigned long v) : value(v)`, the one taken by a
`size_t` argument: "unsigned long is 64 bit on some platforms.  Let it narrow." -/
def ofSizeT (v : Nat) : sampleCount := ⟨wrap64 v⟩

/-- Constructor `sampleCount(long v) : value{v}`. -/
def ofLong (v : Int) : sampleCount := ⟨wrap64 v⟩

/-- Constructor `sampleCount(int v) : value{v}`. -/
def ofInt (v : Int) : sampleCount := ⟨wrap64 v⟩

/-- Member `as_long_long`: `return value;`. -/
def as_long_long (a : sampleCount) : Int := a.value

/-- Member `as_size_t`: `return value;` converted to `size_t`. -/
def as_size_t (a : sampleCount) : Nat := toSizeT a.value

/-- The `operator <` of the header, `a.as_long_long() < b.as_long_long()`:
comparison of the two `value` members. -/
def lt (a b : sampleCount) : Bool := decide (a.value < b.value)

/-- The `operator +`: `sampleCount{ a } += b`, 64-bit wrap-around. -/
def add (a b : sampleCount) : sampleCount := ⟨wrap64 (a.value + b.value)⟩

/-- The `operator -`: `sampleCount{ a } -= b`, 64-bit wrap-around. -/
def sub (a b : sampleCount) : sampleCount := ⟨wrap64 (a.value - b.value)⟩

/-- The `std::min(a, b)` of the standard library: `(b < a) ? b : a`. -/
def min (a b : sampleCount) : sampleCount := if lt b a then b else a

/-- The `std::max(a, b)` of the standard library: `(a < b) ? b : a`. -/
def max (a b : sampleCount) : sampleCount := if lt a b then b else a

end sampleCount

/-- Function `limitSampleBufferSize` of samplecount.h:
`std::min( sampleCount( bufferSize ), std::max( sampleCount(0), limit ) ).as_size_t()`. -/
def limitSampleBufferSize (bufferSize : Nat) (limit : sampleCount) : Nat :=
  (sampleCount.min (sampleCount.ofSizeT bufferSize)
    (sampleCount.max (sampleCount.ofInt 0) limit)).as_size_t

/-! ## Floating point, kept abstract -/

/-- The floating-point operations used by the code, over an abstract `double`
type `D` and an abstract `float` type `F`.  `toInt` is the value the cast
`(int) x` produces on the target, whatever it is when `x` is out of range. -/
structure FloatOps (D F : Type) where
  one : F
  ofSizeT : Nat → F
  ofInt64 : Int → F
  mul : F → F → F
  div : F → F → F
  toInt : F → Int
  narrow : D → F
  widen : F → D

/-- Exact rational arithmetic, a concrete instance used to evaluate the
definitions on explicit inputs. -/
def exactOps : FloatOps ℚ ℚ where
  one := 1
  ofSizeT := fun n => (n : ℚ)
  ofInt64 := fun z => (z : ℚ)
  mul := fun a b => a * b
  div := fun a b => a / b
  toInt := fun q => if 0 ≤ q then Rat.floor q else - Rat.floor (- q)
  narrow := fun d => d
  widen := fun f => f

/-! ## Binary32 arithmetic -/

/-- Rounding of a rational to the nearest integer, ties to the even one. -/
def roundHalfEven (x : ℚ) : Int :=
  if x - ⌊x⌋ < 1 / 2 then ⌊x⌋
  else if 1 / 2 < x - ⌊x⌋ then ⌊x⌋ + 1
  else if ⌊x⌋ % 2 = 0 then ⌊x⌋ else ⌊x⌋ + 1

/-- The exponent of the unit in the last place of binary32 at `x`: 24
significant bits, least exponent -126 (below `2 ^ (-126)` the spacing stays
`2 ^ (-149)`). -/
def ulpExp (x : ℚ) : Int := max (Int.log 2 |x|) (-126) - 23

/-- Rounding of a rational to binary32, to nearest, ties to even.  The exponent
range is not bounded above: the result is the binary32 one for every value
whose rounding is finite (magnitude below `2 ^ 128`). -/
def round32 (x : ℚ) : ℚ := (roundHalfEven (x / 2 ^ ulpExp x) : ℚ) * 2 ^ ulpExp x

/-- IEEE 754 arithmetic on finite values, `float` being binary32 and `float`
expressions being evaluated in `float`: a `float` or `double` is the rational it
denotes, every operation with a `float` result is the exact one followed by
`round32`, and `(int) x` drops the fractional part.  (Division is meant for a
divisor other than 0.) -/
def binary32Ops : FloatOps ℚ ℚ where
  one := 1
  ofSizeT := fun n => round32 (n : ℚ)
  ofInt64 := fun z => round32 (z : ℚ)
  mul := fun a b => round32 (a * b)
  div := fun a b => round32 (a / b)
  toInt := fun q => if 0 ≤ q then Rat.floor q else - Rat.floor (- q)
  narrow := fun d => round32 d
  widen := fun f => f

/-! ## `VariableOutputRateSlideImp` (jsbsms.cpp, lines 82-125) -/

/-- The members of `VariableOutputRateSlideImp`; `rates` is the array the
pointer designates. -/
structure VariableOutputRateSlideImp (F : Type) where
  idx : Nat
  numSamples : Nat
  rates : List F

namespace VariableOutputRateSlideImp

variable {D F : Type}

/-- The constructor: `numSamples` is assigned only `if (n)`; otherwise the member
keeps its indeterminate value, passed here as `uninit`. -/
def new (rates : List F) (n : Int) (uninit : Nat) : VariableOutputRateSlideImp F :=
  { idx := 0, numSamples := if n ≠ 0 then toSizeT n else uninit, rates := rates }

/-- Member `getTotalStretch`: `return 1.0f;`. -/
def getTotalStretch (fo : FloatOps D F) (_s : VariableOutputRateSlideImp F) : F := fo.one

/-- Member `getStretchedTime`: `return t;`. -/
def getStretchedTime (_s : VariableOutputRateSlideImp F) (t : F) : F := t

/-- Member `getInverseStretchedTime`: `return t;`. -/
def getInverseStretchedTime (_s : VariableOutputRateSlideImp F) (t : F) : F := t

/-- The index `getRate(float t)` reads: `size_t rateIdx = (int) (t * (numSamples - 1));`
then `if (rateIdx >= numSamples) rateIdx = numSamples - 1;`.  The subtraction is
done in `size_t`, the product in `float`, the cast to `int` is converted to
`size_t` by sign extension. -/
def getRateIdx (fo : FloatOps D F) (s : VariableOutputRateSlideImp F) (t : F) : Nat :=
  let rateIdx := toSizeT (wrap32 (fo.toInt (fo.mul t (fo.ofSizeT (toSizeT (s.numSamples - 1))))))
  if rateIdx ≥ s.numSamples then toSizeT (s.numSamples - 1) else rateIdx

/-- Member `getRate(float t)`: `return rates[rateIdx];`, no value when the index
is outside the array. -/
def getRate (fo : FloatOps D F) (s : VariableOutputRateSlideImp F) (t : F) : Option F :=
  s.rates[getRateIdx fo s t]?

/-- Member `getStretch(float t)`: `return 1.0f;`. -/
def getStretch (fo : FloatOps D F) (_s : VariableOutputRateSlideImp F) (_t : F) : F := fo.one

/-- Member `getMeanStretch(float t0, float t1)`: `return 1.0f;`. -/
def getMeanStretch (fo : FloatOps D F) (_s : VariableOutputRateSlideImp F) (_t0 _t1 : F) : F :=
  fo.one

/-- Member `getRate()`: `return rates[idx];`. -/
def getRateCur (s : VariableOutputRateSlideImp F) : Option F := s.rates[s.idx]?

/-- Member `getStretch()`: `return 1.0f;`. -/
def getStretchCur (fo : FloatOps D F) (_s : VariableOutputRateSlideImp F) : F := fo.one

/-- Member `step`: `idx++;` on a `size_t`. -/
def step (s : VariableOutputRateSlideImp F) : VariableOutputRateSlideImp F :=
  { s with idx := (s.idx + 1) % 2 ^ 64 }

end VariableOutputRateSlideImp

/-! ## `GetBestBlockSize` (jsbsms.cpp, lines 139-141) -/

/-- Halving loop computing the integer part of the base-2 logarithm. -/
def floorLog2Aux : Nat → Nat → Nat
  | 0, _ => 0
  | fuel + 1, x => if 2 ≤ x then floorLog2Aux fuel (x / 2) + 1 else 0

/-- Modelled from the C library contract: `(int) std::floor(std::log2l(x))` for a
`long long` argument `x >= 1` is the integer part of the base-2 logarithm of `x`
(64 halvings cover every 64-bit value). -/
def floorLog2 (x : Nat) : Nat := floorLog2Aux 64 x

/-- The expression `1 << k` on the `int` literal `1`: for `0 <= k <= 31` the value
`2 ^ k` converted to `int` (so `1 << 31` is `INT_MIN`); a shift count of 32 or
more is undefined and has no value here. -/
def shlOneInt (k : Nat) : Option Int := if k < 32 then some (wrap32 (2 ^ k)) else none

/-- Function `GetBestBlockSize`:
`return 1 << (int) std::floor(std::log2l((end - start).as_long_long()));`
The logarithm of a value below 1 is not a finite number and its cast to `int`
is undefined: no value.  The `int` result is converted to `size_t`. -/
def GetBestBlockSize (start end_ : sampleCount) : Option Nat :=
  let d := (sampleCount.sub end_ start).as_long_long
  if d < 1 then none
  else (shlOneInt (floorLog2 d.toNat)).map toSizeT

/-! ## `ResampleBuf`, `SBSMSFrame` and `resampleCB` (jsbsms.cpp, lines 25-53, 148-178) -/

/-- The members of `ResampleBuf` the callbacks use.  `buf` is the frame buffer
(`ArrayOf<audio>`, the floats of its frames one after the other), `sampleBuf`
the per-channel input arrays (`double**`).  The engine objects (`sbsms`, `iface`,
`resampler`, `quality`, `SBSMSBuf`) are external and not part of the state. -/
structure ResampleBuf (D F : Type) where
  bPitch : Bool
  buf : List F
  ratio : D
  processed : sampleCount
  blockSize : Nat
  SBSMSBlockSize : Int
  offset : sampleCount
  end_ : sampleCount
  channels : Nat
  sampleBuf : List (List D)

/-- The two queries of the external `SBSMSInterface` that `resampleCB` makes. -/
structure Iface (F : Type) where
  getSamplesToInput : Int
  getStretch : F → F

/-- The fields of `SBSMSFrame` that `resampleCB` fills; `buf` is the frame buffer
the pointer `data->buf` designates. -/
structure SBSMSFrame (F : Type) where
  ratio0 : F
  ratio1 : F
  buf : List F
  size : Int

section Reader

variable {D F : Type}

/-- Read of `r->sampleBuf[c][o]`. -/
def sampleAt (r : ResampleBuf D F) (c o : Nat) : Option D :=
  match r.sampleBuf[c]? with
  | some ch => ch[o]?
  | none => none

/-- Read of `a[i][c]` in an array of arrays (an array of pointers such as
`outputBuf`, or a list of frames). -/
def frameAt (buf : List (List F)) (i c : Nat) : Option F :=
  match buf[i]? with
  | some fr => fr[c]?
  | none => none

/-- Write `a[i][c] = v` in an array of arrays. -/
def setSample (buf : List (List F)) (i c : Nat) (v : F) : List (List F) :=
  match buf[i]? with
  | some fr => buf.set i (fr.set c v)
  | none => buf

/-- Read of `buf[i][c]` in an array of `audio` frames of `w` floats each: the
float at position `w * i + c`. -/
def audioAt (w : Nat) (buf : List F) (i c : Nat) : Option F := buf[w * i + c]?

/-- Write `buf[i][c] = v` in an array of `audio` frames of `w` floats each. -/
def setAudio (w : Nat) (buf : List F) (i c : Nat) (v : F) : List F := buf.set (w * i + c) v

/-- The inner loop of `resampleCB`:
`for (unsigned char c = 0; c < r->channels; c++) r->buf[i][c] = r->sampleBuf[c][o];` -/
def writeFrame (fo : FloatOps D F) (w : Nat) (r : ResampleBuf D F) (i o : Nat)
    (buf : List F) : List F :=
  (List.range r.channels).foldl
    (fun b c =>
      match sampleAt r c o with
      | some v => setAudio w b i c (fo.narrow v)
      | none => b)
    buf

/-- The outer loop of `resampleCB`:
`for (i = 0; i < blockSize && o < r->end; i++, o++)`, entered at `i`, `o`.
The first argument bounds the number of iterations left; the loop leaves after
at most `blockSize` of them because `i` counts up to `blockSize`.  The
comparison `o < r->end` converts the `size_t` to a `sampleCount`. -/
def convertLoop (fo : FloatOps D F) (w : Nat) (r : ResampleBuf D F) (blockSize : Nat) :
    Nat → Nat → Nat → List F → List F
  | 0, _, _, buf => buf
  | fuel + 1, i, o, buf =>
    if i < blockSize ∧ sampleCount.lt (sampleCount.ofSizeT o) r.end_ = true then
      convertLoop fo w r blockSize fuel (i + 1) ((o + 1) % 2 ^ 64) (writeFrame fo w r i o buf)
    else buf

/-- Function `resampleCB`: the returned `long`, the frame written to `data`,
and the reader state after the call. -/
def resampleCB (fo : FloatOps D F) (w : Nat) (iface : Iface F) (r : ResampleBuf D F) :
    Int × SBSMSFrame F × ResampleBuf D F :=
  let blockSize := limitSampleBufferSize r.blockSize (sampleCount.sub r.end_ r.offset)
  let o := r.offset.as_size_t
  let buf1 := convertLoop fo w r blockSize blockSize 0 o r.buf
  let t0 := fo.div (fo.ofInt64 r.processed.value) (fo.ofInt64 iface.getSamplesToInput)
  let t1 := fo.div (fo.ofInt64 (sampleCount.add r.processed (sampleCount.ofSizeT blockSize)).value)
    (fo.ofInt64 iface.getSamplesToInput)
  let data : SBSMSFrame F :=
    { buf := buf1
      size := wrap64 blockSize
      ratio0 := if r.bPitch then iface.getStretch t0 else fo.narrow r.ratio
      ratio1 := if r.bPitch then iface.getStretch t1 else fo.narrow r.ratio }
  let r1 : ResampleBuf D F :=
    { r with
      buf := buf1
      processed := sampleCount.add r.processed (sampleCount.ofSizeT blockSize)
      offset := sampleCount.add r.offset (sampleCount.ofSizeT blockSize) }
  (wrap64 blockSize, data, r1)

/-- The frames one call hands downstream: for each of the first `count` frames
`i` of the frame buffer, the floats `buf[i][0]`, ..., `buf[i][channels - 1]`. -/
def delivered (w : Nat) (count : Int) (buf : List F) (channels : Nat) : List (List F) :=
  (List.range count.toNat).map (fun i => (buf.drop (w * i)).take channels)

/-- Repeated calls of `resampleCB`: the count and the delivered frames of each of
the first `k` calls, in call order, and the reader state after them. -/
def pull (fo : FloatOps D F) (w : Nat) (iface : Iface F) :
    Nat → ResampleBuf D F → List (Int × List (List F)) × ResampleBuf D F
  | 0, r => ([], r)
  | k + 1, r =>
    let res := resampleCB fo w iface r
    let rest := pull fo w iface k res.2.2
    ((res.1, delivered w res.1 res.2.1.buf r.channels) :: rest.1, rest.2)

/-- The frames of a sequence of calls, concatenated in call order. -/
def allFrames : List (Int × List (List F)) → List (List F)
  | [] => []
  | call :: rest => call.2 ++ allFrames rest

/-- The sum of the counts returned by a sequence of calls. -/
def totalCount : List (Int × List (List F)) → Int
  | [] => 0
  | call :: rest => call.1 + totalCount rest

/-- The conditions under which the calls of `resampleCB` stay inside their
arrays and counters, for a reader that started at `start` and frames of `w`
floats: the offset lies between `start` and `end`, `processed` counts the
samples consumed since `start`, the block size is at least 1 and the frame
buffer holds `blockSize` frames, every channel array holds a sample at every
position below `end`, and a frame has room for every channel. -/
def ReaderOK (w : Nat) (start : Int) (r : ResampleBuf D F) : Prop :=
  0 ≤ start ∧ start ≤ r.offset.value ∧ r.offset.value ≤ r.end_.value
  ∧ r.end_.value < 2 ^ 63
  ∧ r.processed.value = r.offset.value - start
  ∧ 1 ≤ r.blockSize ∧ r.blockSize < 2 ^ 63 ∧ w * r.blockSize ≤ r.buf.length
  ∧ (∀ c j : Nat, c < r.channels → (j : Int) < r.end_.value → ∃ v, sampleAt r c j = some v)
  ∧ r.channels ≤ w

end Reader

/-- A two-channel reader over three input samples per channel with a buffer of
two frames of two floats, used to evaluate the definitions. -/
def demoReader : ResampleBuf ℚ ℚ :=
  { bPitch := false
    buf := [0, 0, 0, 0]
    ratio := 1
    processed := ⟨0⟩
    blockSize := 2
    SBSMSBlockSize := 0
    offset := ⟨0⟩
    end_ := ⟨3⟩
    channels := 2
    sampleBuf := [[1, 2, 3], [4, 5, 6]] }

/-- An interface reporting three input samples and a constant stretch. -/
def demoIface : Iface ℚ := ⟨3, fun _ => 1⟩

/-- A reader whose `blockSize` member holds `2 ^ 63`, with one sample left. -/
def wideReader : ResampleBuf ℚ ℚ :=
  { bPitch := false
    buf := [0, 0]
    ratio := 1
    processed := ⟨0⟩
    blockSize := 2 ^ 63
    SBSMSBlockSize := 0
    offset := ⟨0⟩
    end_ := ⟨1⟩
    channels := 2
    sampleBuf := [[1], [4]] }

/-- A three-channel reader over two input samples per channel, with a buffer of
three frames of two floats. -/
def trioReader : ResampleBuf ℚ ℚ :=
  { bPitch := false
    buf := [0, 0, 0, 0, 0, 0]
    ratio := 1
    processed := ⟨0⟩
    blockSize := 2
    SBSMSBlockSize := 0
    offset := ⟨0⟩
    end_ := ⟨2⟩
    channels := 3
    sampleBuf := [[1, 2], [4, 5], [7, 8]] }

/-! ## The drain loop of `process` (jsbsms.cpp, lines 250-287) -/

/-- Constant `SBSMSOutBlockSize`. -/
def SBSMSOutBlockSize : Nat := 512

/-- The second-stage `Resampler` as the drain loop sees it: `read(outBuf, n)`
returns a count, rewrites the block buffer and moves to a new internal state. -/
structure OutReader (σ F : Type) where
  read : σ → List F → Int → Int × List F × σ

/-- The variables the drain loop updates: `pos`, `outputCount`, the block buffer
`outBuf`, the per-channel arrays `outputBuf`, and the state of the resampler. -/
structure DrainState (σ D F : Type) where
  pos : Int
  outputCount : Int
  outBuf : List F
  outputBuf : List (List D)
  rs : σ

/-- One pass through the loop body, as observed: `pos`, the state of the
resampler and the block buffer on entry, the number of frames requested, the
count the read returned. -/
structure DrainIter (σ F : Type) where
  pos : Int
  rs : σ
  outBuf : List F
  frames : Nat
  outputCount : Int
deriving Repr

section Drain

variable {σ D F : Type}

/-- Write `outputBuf[c][j] = v`; `j` is a `long`. -/
def setOut (outputBuf : List (List D)) (c : Nat) (j : Int) (v : D) : List (List D) :=
  if 0 ≤ j then setSample outputBuf c j.toNat v else outputBuf

/-- The copy loops of the drain loop body:
`for(int i = 0; i < outputCount; i++) for (int c = 0; c < channelCount; c++)
outputBuf[c][i + pos] = outBuf[i][c];` (for a count that fits an `int`). -/
def copyOut (fo : FloatOps D F) (w : Nat) (channelCount : Nat) (pos outputCount : Int)
    (outBuf : List F) (outputBuf : List (List D)) : List (List D) :=
  (List.range outputCount.toNat).foldl
    (fun ob i =>
      (List.range channelCount).foldl
        (fun ob1 c =>
          match audioAt w outBuf i c with
          | some v => setOut ob1 c (wrap64 ((i : Int) + pos)) (fo.widen v)
          | none => ob1)
        ob)
    outputBuf

/-- The loop `while(pos < sbOutCount && outputCount) { ... }` of `process`.  The
first argument bounds the number of passes; the result is `none` when the bound
is used up with the loop condition still true.  Returned with the final state
is the record of every pass, in order. -/
def drainLoop (fo : FloatOps D F) (w : Nat) (rd : OutReader σ F) (channelCount : Nat)
    (sbOutCount : Int) :
    Nat → DrainState σ D F → Option (List (DrainIter σ F) × DrainState σ D F)
  | 0, s => if s.pos < sbOutCount ∧ s.outputCount ≠ 0 then none else some ([], s)
  | fuel + 1, s =>
    if s.pos < sbOutCount ∧ s.outputCount ≠ 0 then
      let frames := limitSampleBufferSize SBSMSOutBlockSize
        (sampleCount.ofLong (wrap64 (sbOutCount - s.pos)))
      let res := rd.read s.rs s.outBuf (wrap64 frames)
      let s1 : DrainState σ D F :=
        { pos := wrap64 (s.pos + res.1)
          outputCount := res.1
          outBuf := res.2.1
          outputBuf := copyOut fo w channelCount s.pos res.1 res.2.1 s.outputBuf
          rs := res.2.2 }
      match drainLoop fo w rd channelCount sbOutCount fuel s1 with
      | some (log, s2) => some (⟨s.pos, s.rs, s.outBuf, frames, res.1⟩ :: log, s2)
      | none => none
    else some ([], s)

/-- The allocation `outputBuf[c] = new double[sbOutCount]` for every channel:
`channelCount` arrays of `sbOutCount` elements whose initial values are
indeterminate, given here by `heap`. -/
def allocOutput (channelCount : Nat) (sbOutCount : Int) (heap : Nat → Nat → D) : List (List D) :=
  (List.range channelCount).map (fun c => (List.range sbOutCount.toNat).map (heap c))

/-- The tail of `process` from line 250: allocation of the output arrays, the
drain loop started at `pos = 0`, `outputCount = -1`, and the arrays handed back
(`SetDoubleArrayRegion(channelOutput, 0, sbOutCount, outputBuf[c])` copies the
first `sbOutCount` elements of every channel).  Returned with the arrays is the
final `pos`. -/
def processDrain (fo : FloatOps D F) (w : Nat) (rd : OutReader σ F) (channelCount : Nat)
    (sbOutCount : Int) (heap : Nat → Nat → D) (outBuf0 : List F) (rs0 : σ) (fuel : Nat) :
    Option (Int × List (List D)) :=
  let s0 : DrainState σ D F :=
    { pos := 0
      outputCount := -1
      outBuf := outBuf0
      outputBuf := allocOutput channelCount sbOutCount heap
      rs := rs0 }
  match drainLoop fo w rd channelCount sbOutCount fuel s0 with
  | some (_, s) => some (s.pos, s.outputBuf.map (fun ch => ch.take sbOutCount.toNat))
  | none => none

end Drain

/-- A second-stage reader at end of stream: every read returns 0 frames and
leaves the block buffer as it is. -/
def stalledReader : OutReader Unit ℚ := ⟨fun st ob _ => (0, ob, st)⟩

/-- A second-stage reader that returns at most three frames per read, every
float of the block buffer holding the number of the read. -/
def chunkReader : OutReader Nat ℚ :=
  ⟨fun st _ k => (min k 3, List.replicate 1024 (st : ℚ), st + 1)⟩

/-- The drain loop state `process` starts from (`pos = 0`, `outputCount = -1`)
for one channel and seven predicted samples, over `chunkReader`. -/
def demoDrainState : DrainState Nat ℚ ℚ :=
  { pos := 0
    outputCount := -1
    outBuf := []
    outputBuf := allocOutput 1 7 (fun _ _ => 7)
    rs := 0 }

/-! ## Properties of the machine integers and of `limitSampleBufferSize` -/

/-- A value already in the signed 64-bit range is left unchanged by the conversion. -/
theorem wrap64_of_range (v : Int) (h1 : -2 ^ 63 ≤ v) (h2 : v < 2 ^ 63) : wrap64 v = v := by
  unfold wrap64; omega

/-- A value already in the `size_t` range is left unchanged by the conversion. -/
theorem toSizeT_of_range (v : Int) (h1 : 0 ≤ v) (h2 : v < 2 ^ 64) : (toSizeT v : Int) = v := by
  unfold toSizeT; omega

/-- Value of `limitSampleBufferSize` for a buffer size below `2 ^ 63`. -/
theorem limitSampleBufferSize_cast (bufferSize : Nat) (limit : Int)
    (hb : bufferSize < 2 ^ 63) (hlo : -2 ^ 63 ≤ limit) (hhi : limit < 2 ^ 63) :
    (limitSampleBufferSize bufferSize ⟨limit⟩ : Int) = min (bufferSize : Int) (max 0 limit) := by
  have h0 : wrap64 0 = 0 := wrap64_of_range 0 (by omega) (by omega)
  have hb1 : wrap64 (bufferSize : Int) = bufferSize := wrap64_of_range _ (by omega) (by omega)
  unfold limitSampleBufferSize sampleCount.ofSizeT sampleCount.ofInt sampleCount.min
    sampleCount.max
  rw [h0, hb1]
  simp only [sampleCount.lt, sampleCount.as_size_t, decide_eq_true_eq]
  split_ifs with c1 c2 c3 <;> dsimp only at * <;>
    rw [toSizeT_of_range _ (by omega) (by omega)] <;> omega

/-- C1 (amended): for every buffer size below `2 ^ 63` and every signed 64-bit
remaining count, `limitSampleBufferSize(bufferSize, remaining)` equals
`min(bufferSize, max(0, remaining))`: it is `bufferSize` when
`remaining >= bufferSize`, `remaining` when `0 <= remaining < bufferSize`, and 0
when `remaining <= 0`. -/
theorem limitSampleBufferSize_min_max (bufferSize : Nat) (remaining : Int)
    (hb : bufferSize < 2 ^ 63) (hlo : -2 ^ 63 ≤ remaining) (hhi : remaining < 2 ^ 63) :
    (limitSampleBufferSize bufferSize ⟨remaining⟩ : Int) = min (bufferSize : Int) (max 0 remaining)
    ∧ ((bufferSize : Int) ≤ remaining → limitSampleBufferSize bufferSize ⟨remaining⟩ = bufferSize)
    ∧ (0 ≤ remaining → remaining < bufferSize →
        (limitSampleBufferSize bufferSize ⟨remaining⟩ : Int) = remaining)
    ∧ (remaining ≤ 0 → limitSampleBufferSize bufferSize ⟨remaining⟩ = 0) := by
  have h := limitSampleBufferSize_cast bufferSize remaining hb hlo hhi
  refine ⟨h, ?_, ?_, ?_⟩ <;> intros <;> omega

/-- C1, the amended statement at `bufferSize = 512`, `remaining = 200`. -/
theorem limitSampleBufferSize_min_max_witness :
    (limitSampleBufferSize 512 ⟨200⟩ : Int) = min (512 : Int) (max 0 200)
    ∧ (((512 : Nat) : Int) ≤ 200 → limitSampleBufferSize 512 ⟨200⟩ = 512)
    ∧ ((0 : Int) ≤ 200 → (200 : Int) < (512 : Nat) →
        (limitSampleBufferSize 512 ⟨200⟩ : Int) = 200)
    ∧ ((200 : Int) ≤ 0 → limitSampleBufferSize 512 ⟨200⟩ = 0) :=
  limitSampleBufferSize_min_max 512 200 (by decide) (by decide) (by decide)

/-- C1 as stated fails at `bufferSize = 2 ^ 63`, `remaining = 5`: the `size_t`
narrows to a negative `sampleCount`, which wins the `std::min`, and the result
is `2 ^ 63` instead of `min(2 ^ 63, 5) = 5`. -/
theorem limitSampleBufferSize_narrowing_counterexample :
    limitSampleBufferSize (2 ^ 63) ⟨5⟩ = 2 ^ 63
    ∧ ¬ ((limitSampleBufferSize (2 ^ 63) ⟨5⟩ : Int) = min (((2 ^ 63 : Nat)) : Int) (max 0 5)) := by
  decide

/-! ## Properties of the per-sample rate curve -/

section RateCurve

open VariableOutputRateSlideImp

/-- C5 (amended): for a rate curve built over an array of declared length `n >= 1`,
the index `getRate(t)` reads lies in `[0, n - 1]` whatever the float `t` and
whatever the product and the cast produce, so the lookup stays inside a rates
array of that length. -/
theorem getRateIdx_in_range {D F : Type} (fo : FloatOps D F) (rates : List F) (n : Int)
    (uninit : Nat) (t : F) (h1 : 1 ≤ n) (h2 : n < 2 ^ 63) :
    (getRateIdx fo (new rates n uninit) t : Int) ≤ n - 1
    ∧ ((rates.length : Int) = n → ∃ v, getRate fo (new rates n uninit) t = some v) := by
  have hidx : (getRateIdx fo (new rates n uninit) t : Int) ≤ n - 1 := by
    simp only [getRateIdx, new, toSizeT]
    split_ifs <;> omega
  refine ⟨hidx, fun hlen => ?_⟩
  have hlt : getRateIdx fo (new rates n uninit) t < rates.length := by omega
  exact ⟨rates[getRateIdx fo (new rates n uninit) t], by simp [getRate, new, hlt]⟩

/-- C5, the amended statement for three rates and `t = 3/2`. -/
theorem getRateIdx_in_range_witness :
    (getRateIdx exactOps (new [(1 : ℚ), 2, 3] 3 0) (3 / 2) : Int) ≤ 3 - 1
    ∧ ((([(1 : ℚ), 2, 3] : List ℚ).length : Int) = 3 →
        ∃ v, getRate exactOps (new [(1 : ℚ), 2, 3] 3 0) (3 / 2) = some v) :=
  getRateIdx_in_range exactOps [(1 : ℚ), 2, 3] 3 0 (3 / 2) (by decide) (by decide)

/-- C5 as stated fails at declared length `n = 0`: the constructor leaves
`numSamples` unset, the interval `[0, n - 1]` is empty, and the lookup reads
outside the (empty) rates array. -/
theorem getRateIdx_empty_counterexample :
    ¬ ((getRateIdx exactOps (new ([] : List ℚ) 0 0) 0 : Int) ≤ 0 - 1)
    ∧ getRate exactOps (new ([] : List ℚ) 0 0) 0 = none := by
  constructor
  · omega
  · simp [getRate, new]

/-- C6 (amended): on the per-sample array rate curve `getStretch(t)`, `getStretch()`,
`getTotalStretch()` and `getMeanStretch(t0, t1)` return 1.0 for every argument,
and `getStretchedTime(t)` and `getInverseStretchedTime(t)` return `t` itself. -/
theorem tempo_queries {D F : Type} (fo : FloatOps D F) (s : VariableOutputRateSlideImp F)
    (t t0 t1 : F) :
    getStretch fo s t = fo.one ∧ getStretchCur fo s = fo.one ∧ getTotalStretch fo s = fo.one
    ∧ getMeanStretch fo s t0 t1 = fo.one
    ∧ getStretchedTime s t = t ∧ getInverseStretchedTime s t = t :=
  ⟨rfl, rfl, rfl, rfl, rfl, rfl⟩

/-- C6 as stated fails at `t = 0`: `getStretchedTime(0)` and
`getInverseStretchedTime(0)` return 0, not 1.0. -/
theorem stretchedTime_counterexample :
    getStretchedTime (new [(1 : ℚ)] 1 0) 0 ≠ exactOps.one
    ∧ getInverseStretchedTime (new [(1 : ℚ)] 1 0) 0 ≠ exactOps.one := by
  simp [getStretchedTime, getInverseStretchedTime, exactOps]

end RateCurve

/-! ## Properties of binary32 rounding -/

section Binary32

theorem roundHalfEven_intCast (k : Int) : roundHalfEven (k : ℚ) = k := by
  unfold roundHalfEven
  simp

theorem floor_le_roundHalfEven (x : ℚ) : ⌊x⌋ ≤ roundHalfEven x := by
  unfold roundHalfEven
  split_ifs <;> omega

theorem roundHalfEven_le_floor_succ (x : ℚ) : roundHalfEven x ≤ ⌊x⌋ + 1 := by
  unfold roundHalfEven
  split_ifs <;> omega

/-- Rounding to the nearest integer is monotone. -/
theorem roundHalfEven_mono (x y : ℚ) (h : x ≤ y) : roundHalfEven x ≤ roundHalfEven y := by
  have hf : ⌊x⌋ ≤ ⌊y⌋ := Int.floor_mono h
  rcases eq_or_lt_of_le hf with he | hlt
  · unfold roundHalfEven
    rw [← he]
    split_ifs <;> first | omega | (exfalso; linarith)
  · calc roundHalfEven x ≤ ⌊x⌋ + 1 := roundHalfEven_le_floor_succ x
      _ ≤ ⌊y⌋ := hlt
      _ ≤ roundHalfEven y := floor_le_roundHalfEven y

theorem le_roundHalfEven (m : Int) (x : ℚ) (h : (m : ℚ) ≤ x) : m ≤ roundHalfEven x := by
  have := roundHalfEven_mono _ _ h
  rwa [roundHalfEven_intCast] at this

theorem roundHalfEven_le (m : Int) (x : ℚ) (h : x ≤ (m : ℚ)) : roundHalfEven x ≤ m := by
  have := roundHalfEven_mono _ _ h
  rwa [roundHalfEven_intCast] at this

theorem two_zpow_pos (e : Int) : (0 : ℚ) < 2 ^ e := zpow_pos (by norm_num) e

theorem round32_zero : round32 0 = 0 := by
  unfold round32
  rw [zero_div, show ((0 : ℚ)) = ((0 : Int) : ℚ) by norm_num, roundHalfEven_intCast]
  simp

theorem round32_nonneg (x : ℚ) (h : 0 ≤ x) : 0 ≤ round32 x := by
  unfold round32
  have h1 : (0 : Int) ≤ roundHalfEven (x / 2 ^ ulpExp x) :=
    le_roundHalfEven 0 _ (by simpa using div_nonneg h (two_zpow_pos _).le)
  exact mul_nonneg (by exact_mod_cast h1) (two_zpow_pos _).le

/-- A value that is a whole multiple of its unit in the last place is a binary32
value: rounding leaves it as it is. -/
theorem round32_of_multiple (x : ℚ) (m : Int) (h : x = (m : ℚ) * 2 ^ ulpExp x) :
    round32 x = x := by
  unfold round32
  have hd : x / 2 ^ ulpExp x = (m : ℚ) := by
    rw [div_eq_iff (two_zpow_pos _).ne']
    exact h
  rw [hd, roundHalfEven_intCast, ← h]

/-- The exponent of the last place of a value in the binade `[2 ^ l, 2 ^ (l + 1))`. -/
theorem ulpExp_of_binade (x : ℚ) (l : Int) (h1 : (2 : ℚ) ^ l ≤ |x|) (h2 : |x| < 2 ^ (l + 1)) :
    ulpExp x = max l (-126) - 23 := by
  have hpos : 0 < |x| := lt_of_lt_of_le (two_zpow_pos l) h1
  have a : l ≤ Int.log 2 |x| := (Int.zpow_le_iff_le_log (by norm_num) hpos).1 (by exact_mod_cast h1)
  have b : Int.log 2 |x| < l + 1 :=
    (Int.lt_zpow_iff_log_lt (by norm_num) hpos).1 (by exact_mod_cast h2)
  unfold ulpExp
  have : Int.log 2 |x| = l := by omega
  rw [this]

/-- Every natural number up to `2 ^ 24` is a binary32 value. -/
theorem round32_natCast (k : Nat) (hk : k ≤ 2 ^ 24) : round32 (k : ℚ) = k := by
  rcases Nat.eq_zero_or_pos k with h0 | hpos
  · subst h0
    simpa using round32_zero
  · have hk1 : (1 : ℚ) ≤ (k : ℚ) := by exact_mod_cast hpos
    have habs : |(k : ℚ)| = k := abs_of_nonneg (by positivity)
    have hkpos : (0 : ℚ) < |(k : ℚ)| := by rw [habs]; positivity
    have a : (0 : Int) ≤ Int.log 2 |(k : ℚ)| :=
      (Int.zpow_le_iff_le_log (by norm_num) hkpos).1 (by rw [habs]; simpa using hk1)
    have b : Int.log 2 |(k : ℚ)| < 25 :=
      (Int.lt_zpow_iff_log_lt (by norm_num) hkpos).1 (by
        rw [habs]
        have : (k : ℚ) ≤ 2 ^ 24 := by exact_mod_cast hk
        norm_num at this ⊢
        linarith)
    have hle : (2 : ℚ) ^ Int.log 2 |(k : ℚ)| ≤ k := by
      have := Int.zpow_log_le_self (b := 2) (r := |(k : ℚ)|) (by norm_num) hkpos
      rw [habs] at this ⊢
      exact_mod_cast this
    generalize hl : Int.log 2 |(k : ℚ)| = l at a b hle
    have he : ulpExp (k : ℚ) = l - 23 := by
      unfold ulpExp
      rw [hl]
      omega
    by_cases h24 : l = 24
    · subst h24
      have hk24 : (k : ℚ) = 2 ^ 24 := by
        have h1 : (k : ℚ) ≤ 2 ^ 24 := by exact_mod_cast hk
        have h2 : (2 : ℚ) ^ 24 ≤ k := by
          have : ((2 : ℚ) ^ (24 : Int)) = 2 ^ 24 := by norm_num
          rw [← this]; exact hle
        linarith
      apply round32_of_multiple _ (2 ^ 23)
      rw [he, hk24]
      norm_num
    · obtain ⟨d, hd⟩ : ∃ d : Nat, (d : Int) = 23 - l := ⟨(23 - l).toNat, by omega⟩
      apply round32_of_multiple _ ((k : Int) * 2 ^ d)
      rw [he]
      have e1 : l - 23 = -(d : Int) := by omega
      rw [e1, zpow_neg, zpow_natCast]
      push_cast
      field_simp

/-- Rounding to binary32 is monotone on the non-negative values. -/
theorem round32_mono (x y : ℚ) (h0 : 0 ≤ x) (h : x ≤ y) : round32 x ≤ round32 y := by
  rcases eq_or_lt_of_le h0 with hz | hpos
  · rw [← hz, round32_zero]
    exact round32_nonneg y (le_trans h0 h)
  · have hypos : 0 < y := lt_of_lt_of_le hpos h
    have hax : |x| = x := abs_of_pos hpos
    have hay : |y| = y := abs_of_pos hypos
    have hlog : Int.log 2 |x| ≤ Int.log 2 |y| := by
      rw [hax, hay]
      exact Int.log_mono_right hpos h
    have hxlt : x < 2 ^ (Int.log 2 |x| + 1) := by
      have := Int.lt_zpow_succ_log_self (b := 2) (by norm_num) x
      rw [hax]
      exact_mod_cast this
    have hyge : (2 : ℚ) ^ Int.log 2 |y| ≤ y := by
      have := Int.zpow_log_le_self (b := 2) (r := y) (by norm_num) hypos
      rw [hay]
      exact_mod_cast this
    have hexy : ulpExp x ≤ ulpExp y := by unfold ulpExp; omega
    rcases eq_or_lt_of_le hexy with heq | hlt
    · unfold round32
      rw [← heq]
      apply mul_le_mul_of_nonneg_right _ (two_zpow_pos _).le
      have := roundHalfEven_mono (x / 2 ^ ulpExp x) (y / 2 ^ ulpExp x)
        (div_le_div_of_nonneg_right h (two_zpow_pos _).le)
      exact_mod_cast this
    · have hx1 : round32 x ≤ 2 ^ 24 * 2 ^ ulpExp x := by
        unfold round32
        apply mul_le_mul_of_nonneg_right _ (two_zpow_pos _).le
        have hb : x / 2 ^ ulpExp x ≤ ((2 ^ 24 : Int) : ℚ) := by
          rw [div_le_iff₀ (two_zpow_pos _)]
          have e : ((2 ^ 24 : Int) : ℚ) * 2 ^ ulpExp x = 2 ^ (ulpExp x + 24) := by
            rw [zpow_add₀ (by norm_num : (2 : ℚ) ≠ 0)]
            norm_num
            ring
          rw [e]
          refine le_trans hxlt.le (zpow_le_zpow_right₀ (by norm_num) ?_)
          unfold ulpExp
          omega
        have := roundHalfEven_le _ _ hb
        exact_mod_cast this
      have hy1 : 2 ^ 23 * 2 ^ ulpExp y ≤ round32 y := by
        unfold round32
        apply mul_le_mul_of_nonneg_right _ (two_zpow_pos _).le
        have hey : ulpExp y = Int.log 2 |y| - 23 := by
          unfold ulpExp at hlt ⊢
          omega
        have hb : ((2 ^ 23 : Int) : ℚ) ≤ y / 2 ^ ulpExp y := by
          rw [le_div_iff₀ (two_zpow_pos _)]
          have e : ((2 ^ 23 : Int) : ℚ) * 2 ^ ulpExp y = 2 ^ (ulpExp y + 23) := by
            rw [zpow_add₀ (by norm_num : (2 : ℚ) ≠ 0)]
            norm_num
            ring
          rw [e, hey]
          have : Int.log 2 |y| - 23 + 23 = Int.log 2 |y| := by omega
          rw [this]
          exact hyge
        have := le_roundHalfEven _ _ hb
        exact_mod_cast this
      have hmid : (2 : ℚ) ^ 24 * 2 ^ ulpExp x ≤ 2 ^ 23 * 2 ^ ulpExp y := by
        have h1 : (2 : ℚ) ^ (ulpExp x + 1) ≤ 2 ^ ulpExp y :=
          zpow_le_zpow_right₀ (by norm_num) (by omega)
        rw [zpow_add₀ (by norm_num : (2 : ℚ) ≠ 0)] at h1
        norm_num at h1 ⊢
        linarith
      linarith

end Binary32

section RateCurve32

open VariableOutputRateSlideImp

theorem wrap32_of_range (v : Int) (h1 : -2 ^ 31 ≤ v) (h2 : v < 2 ^ 31) : wrap32 v = v := by
  unfold wrap32; omega

/-- The index `getRate(t)` reads under binary32 arithmetic, for `t` in `[0, 1]` and
at most `2 ^ 24 + 1` rates: the integer part of the rounded product. -/
theorem getRateIdx_binary32 (rates : List ℚ) (n : Int) (uninit : Nat) (t : ℚ)
    (h1 : 1 ≤ n) (h2 : n ≤ 2 ^ 24 + 1) (ht0 : 0 ≤ t) (ht1 : t ≤ 1) :
    (getRateIdx binary32Ops (new rates n uninit) t : Int) = ⌊round32 (t * ((n : ℚ) - 1))⌋
    ∧ 0 ≤ ⌊round32 (t * ((n : ℚ) - 1))⌋ ∧ ⌊round32 (t * ((n : ℚ) - 1))⌋ ≤ n - 1 := by
  obtain ⟨N, hN⟩ : ∃ N : Nat, (N : Int) = n - 1 := ⟨(n - 1).toNat, by omega⟩
  have hN24 : N ≤ 2 ^ 24 := by omega
  have hns : (new rates n uninit).numSamples = N + 1 := by
    have : (toSizeT n : Int) = n := toSizeT_of_range n (by omega) (by omega)
    simp only [new]
    rw [if_pos (by omega)]
    omega
  have hq : ((n : ℚ) - 1) = (N : ℚ) := by
    have : ((N : Int) : ℚ) = ((n - 1 : Int) : ℚ) := by rw [hN]
    push_cast at this
    linarith
  have hsub : toSizeT (((N + 1 : Nat) : Int) - 1) = N := by
    have := toSizeT_of_range (((N + 1 : Nat) : Int) - 1) (by omega) (by omega)
    omega
  have hNq : (0 : ℚ) ≤ (N : ℚ) := by positivity
  have hp0 : 0 ≤ round32 (t * (N : ℚ)) := round32_nonneg _ (mul_nonneg ht0 hNq)
  have hpN : round32 (t * (N : ℚ)) ≤ N := by
    have := round32_mono (t * N) N (mul_nonneg ht0 hNq) (by nlinarith)
    rwa [round32_natCast N hN24] at this
  have hf0 : 0 ≤ ⌊round32 (t * (N : ℚ))⌋ := Int.floor_nonneg.2 hp0
  have hfN : ⌊round32 (t * (N : ℚ))⌋ ≤ N := by
    have := Int.floor_mono hpN
    simpa using this
  rw [hq]
  refine ⟨?_, hf0, by omega⟩
  simp only [getRateIdx]
  rw [hns, hsub]
  have hof : binary32Ops.ofSizeT N = (N : ℚ) := round32_natCast N hN24
  have hmul : binary32Ops.mul t (N : ℚ) = round32 (t * (N : ℚ)) := rfl
  have hti : binary32Ops.toInt (round32 (t * (N : ℚ))) = ⌊round32 (t * (N : ℚ))⌋ := by
    show (if 0 ≤ round32 (t * (N : ℚ)) then Rat.floor (round32 (t * (N : ℚ)))
      else - Rat.floor (- round32 (t * (N : ℚ)))) = _
    rw [if_pos hp0]
    rfl
  rw [hof, hmul, hti]
  generalize ⌊round32 (t * (N : ℚ))⌋ = k at hf0 hfN
  rw [wrap32_of_range k (by omega) (by omega)]
  have hk : (toSizeT k : Int) = k := toSizeT_of_range k hf0 (by omega)
  rw [if_neg (by omega)]
  exact hk

end RateCurve32

section RateCurveClaims

open VariableOutputRateSlideImp

/-- Binary32 rounding of a value in the binade `[2 ^ l, 2 ^ (l + 1))`, given the
rounded significand. -/
theorem round32_eval (x : ℚ) (l m : Int) (h1 : (2 : ℚ) ^ l ≤ |x|) (h2 : |x| < 2 ^ (l + 1))
    (hl : -126 ≤ l) (hm : roundHalfEven (x / 2 ^ (l - 23)) = m) :
    round32 x = (m : ℚ) * 2 ^ (l - 23) := by
  have he : ulpExp x = l - 23 := by
    rw [ulpExp_of_binade x l h1 h2]
    omega
  unfold round32
  rw [he, hm]

/-- The float literal `0.7f`: the binary32 value nearest to 7/10. -/
theorem round32_seven_tenths : round32 (7 / 10) = 11744051 / 16777216 := by
  rw [round32_eval (7 / 10) (-1) 11744051 (by norm_num [abs_of_pos]) (by norm_num [abs_of_pos])
    (by norm_num) (by norm_num [roundHalfEven])]
  norm_num

/-- The binary32 product `0.7f * 10.0f` is 7. -/
theorem round32_product_seven : round32 (11744051 / 16777216 * ((11 : ℚ) - 1)) = 7 := by
  rw [round32_eval _ 2 14680064 (by norm_num [abs_of_pos]) (by norm_num [abs_of_pos])
    (by norm_num) (by norm_num [roundHalfEven])]
  norm_num

/-- The conversion of `2 ^ 24 + 1` to binary32 is `2 ^ 24` (a tie, resolved to the
even significand). -/
theorem round32_tie : round32 (16777217 : ℚ) = 16777216 := by
  rw [round32_eval _ 24 8388608 (by norm_num [abs_of_pos]) (by norm_num [abs_of_pos])
    (by norm_num) (by norm_num [roundHalfEven])]
  norm_num

/-- C4 (amended): under binary32 arithmetic, for a rate curve built over `n` rates
with `1 <= n <= 2 ^ 24 + 1` and every `t` in `[0, 1]`, `getRate(t)` returns
`rates[i]` where `i` is the integer part of the rounded product
`round32 (t * (n - 1))`; `i` is `floor(t * (n - 1))` or one more; at `t = 0` it
returns `rates[0]`, at `t = 1` it returns `rates[n - 1]`, and the selected index
is non-decreasing in `t`. -/
theorem getRate_binary32 (rates : List ℚ) (n : Int) (uninit : Nat) (t t1 : ℚ)
    (h1 : 1 ≤ n) (h2 : n ≤ 2 ^ 24 + 1) (hlen : (rates.length : Int) = n)
    (ht0 : 0 ≤ t) (htt : t ≤ t1) (ht1 : t1 ≤ 1) :
    (getRateIdx binary32Ops (new rates n uninit) t : Int) = ⌊round32 (t * ((n : ℚ) - 1))⌋
    ∧ getRate binary32Ops (new rates n uninit) t
        = rates[⌊round32 (t * ((n : ℚ) - 1))⌋.toNat]?
    ∧ (∃ v, getRate binary32Ops (new rates n uninit) t = some v)
    ∧ ⌊t * ((n : ℚ) - 1)⌋ ≤ ⌊round32 (t * ((n : ℚ) - 1))⌋
    ∧ ⌊round32 (t * ((n : ℚ) - 1))⌋ ≤ ⌊t * ((n : ℚ) - 1)⌋ + 1
    ∧ getRate binary32Ops (new rates n uninit) 0 = rates[0]?
    ∧ getRate binary32Ops (new rates n uninit) 1 = rates[(n - 1).toNat]?
    ∧ getRateIdx binary32Ops (new rates n uninit) t
        ≤ getRateIdx binary32Ops (new rates n uninit) t1 := by
  have ht01 : t ≤ 1 := le_trans htt ht1
  have ht10 : 0 ≤ t1 := le_trans ht0 htt
  obtain ⟨a, a0, aN⟩ := getRateIdx_binary32 rates n uninit t h1 h2 ht0 ht01
  obtain ⟨b, -, -⟩ := getRateIdx_binary32 rates n uninit t1 h1 h2 ht10 ht1
  obtain ⟨z, -, -⟩ := getRateIdx_binary32 rates n uninit 0 h1 h2 (le_refl _) (by norm_num)
  obtain ⟨o, -, -⟩ := getRateIdx_binary32 rates n uninit 1 h1 h2 (by norm_num) (le_refl _)
  obtain ⟨N, hN⟩ : ∃ N : Nat, (N : Int) = n - 1 := ⟨(n - 1).toNat, by omega⟩
  have hN24 : N ≤ 2 ^ 24 := by omega
  have hq : ((n : ℚ) - 1) = (N : ℚ) := by
    have : ((N : Int) : ℚ) = ((n - 1 : Int) : ℚ) := by rw [hN]
    push_cast at this
    linarith
  have hNq : (0 : ℚ) ≤ (N : ℚ) := by positivity
  have hx0 : 0 ≤ t * (N : ℚ) := mul_nonneg ht0 hNq
  have hidx : getRateIdx binary32Ops (new rates n uninit) t
      = ⌊round32 (t * ((n : ℚ) - 1))⌋.toNat := by omega
  have hget : getRate binary32Ops (new rates n uninit) t
      = rates[⌊round32 (t * ((n : ℚ) - 1))⌋.toNat]? := by
    unfold getRate
    rw [hidx]
    rfl
  refine ⟨a, hget, ?_, ?_, ?_, ?_, ?_, ?_⟩
  · have hlt : ⌊round32 (t * ((n : ℚ) - 1))⌋.toNat < rates.length := by omega
    exact ⟨rates[⌊round32 (t * ((n : ℚ) - 1))⌋.toNat], by
      rw [hget]; exact List.getElem?_eq_getElem hlt⟩
  · rw [hq]
    have hk0 : 0 ≤ ⌊t * (N : ℚ)⌋ := Int.floor_nonneg.2 hx0
    have hkN : ⌊t * (N : ℚ)⌋ ≤ N := by
      have : t * (N : ℚ) ≤ N := by nlinarith
      have := Int.floor_mono this
      simpa using this
    obtain ⟨k, hk⟩ : ∃ k : Nat, (k : Int) = ⌊t * (N : ℚ)⌋ := ⟨⌊t * (N : ℚ)⌋.toNat, by omega⟩
    have hle : ((k : Nat) : ℚ) ≤ t * (N : ℚ) := by
      have := Int.floor_le (t * (N : ℚ))
      rw [← hk] at this
      exact_mod_cast this
    have := round32_mono (k : ℚ) (t * (N : ℚ)) (by positivity) hle
    rw [round32_natCast k (by omega)] at this
    rw [← hk]
    exact Int.le_floor.2 (by exact_mod_cast this)
  · rw [hq] at aN ⊢
    have hk0 : 0 ≤ ⌊t * (N : ℚ)⌋ := Int.floor_nonneg.2 hx0
    by_cases hc : ⌊t * (N : ℚ)⌋ + 1 ≤ 2 ^ 24
    · obtain ⟨k, hk⟩ : ∃ k : Nat, (k : Int) = ⌊t * (N : ℚ)⌋ + 1 :=
        ⟨(⌊t * (N : ℚ)⌋ + 1).toNat, by omega⟩
      have hlt : t * (N : ℚ) ≤ ((k : Nat) : ℚ) := by
        have := (Int.lt_floor_add_one (t * (N : ℚ))).le
        have e : ((k : Nat) : ℚ) = ((⌊t * (N : ℚ)⌋ + 1 : Int) : ℚ) := by rw [← hk]; norm_cast
        rw [e]
        push_cast
        exact this
      have := round32_mono (t * (N : ℚ)) (k : ℚ) hx0 hlt
      rw [round32_natCast k (by omega)] at this
      have := Int.floor_mono this
      rw [← hk]
      simpa using this
    · have hkN : ⌊t * (N : ℚ)⌋ ≤ N := by
        have : t * (N : ℚ) ≤ N := by nlinarith
        have := Int.floor_mono this
        simpa using this
      omega
  · unfold getRate
    have : getRateIdx binary32Ops (new rates n uninit) 0 = 0 := by
      rw [zero_mul, round32_zero] at z
      simpa using z
    rw [this]
    rfl
  · unfold getRate
    have : getRateIdx binary32Ops (new rates n uninit) 1 = (n - 1).toNat := by
      rw [one_mul, hq, round32_natCast N hN24] at o
      have e : ⌊((N : Nat) : ℚ)⌋ = (N : Int) := by simp
      rw [e] at o
      omega
    rw [this]
    rfl
  · have hmono : round32 (t * ((n : ℚ) - 1)) ≤ round32 (t1 * ((n : ℚ) - 1)) := by
      rw [hq]
      exact round32_mono _ _ hx0 (mul_le_mul_of_nonneg_right htt hNq)
    have := Int.floor_mono hmono
    omega

/-- C4, the amended statement for eleven rates, `t = 0.7f` and `t1 = 1`. -/
theorem getRate_binary32_witness :
    (getRateIdx binary32Ops (new [0, 1, 2, 3, 4, 5, 6, 7, 8, 9, 10] 11 0)
        (11744051 / 16777216) : Int)
      = ⌊round32 (11744051 / 16777216 * (((11 : Int) : ℚ) - 1))⌋
    ∧ getRate binary32Ops (new [0, 1, 2, 3, 4, 5, 6, 7, 8, 9, 10] 11 0) (11744051 / 16777216)
        = ([0, 1, 2, 3, 4, 5, 6, 7, 8, 9, 10] : List ℚ)[
            ⌊round32 (11744051 / 16777216 * (((11 : Int) : ℚ) - 1))⌋.toNat]?
    ∧ (∃ v, getRate binary32Ops (new [0, 1, 2, 3, 4, 5, 6, 7, 8, 9, 10] 11 0)
        (11744051 / 16777216) = some v)
    ∧ ⌊(11744051 / 16777216 : ℚ) * (((11 : Int) : ℚ) - 1)⌋
        ≤ ⌊round32 (11744051 / 16777216 * (((11 : Int) : ℚ) - 1))⌋
    ∧ ⌊round32 (11744051 / 16777216 * (((11 : Int) : ℚ) - 1))⌋
        ≤ ⌊(11744051 / 16777216 : ℚ) * (((11 : Int) : ℚ) - 1)⌋ + 1
    ∧ getRate binary32Ops (new [0, 1, 2, 3, 4, 5, 6, 7, 8, 9, 10] 11 0) 0
        = ([0, 1, 2, 3, 4, 5, 6, 7, 8, 9, 10] : List ℚ)[0]?
    ∧ getRate binary32Ops (new [0, 1, 2, 3, 4, 5, 6, 7, 8, 9, 10] 11 0) 1
        = ([0, 1, 2, 3, 4, 5, 6, 7, 8, 9, 10] : List ℚ)[((11 : Int) - 1).toNat]?
    ∧ getRateIdx binary32Ops (new [0, 1, 2, 3, 4, 5, 6, 7, 8, 9, 10] 11 0) (11744051 / 16777216)
        ≤ getRateIdx binary32Ops (new [0, 1, 2, 3, 4, 5, 6, 7, 8, 9, 10] 11 0) 1 :=
  getRate_binary32 [0, 1, 2, 3, 4, 5, 6, 7, 8, 9, 10] 11 0 (11744051 / 16777216) 1
    (by decide) (by decide) (by decide) (by norm_num) (by norm_num) (by norm_num)

/-- C4 as stated fails under binary32 arithmetic.  With eleven rates and
`t = 0.7f` (the float nearest to 7/10, a value of `[0, 1]`) the product
`t * 10` rounds to 7, so `getRate(t)` returns `rates[7]`, while
`floor(t * (n - 1))` is 6.  With `2 ^ 24 + 2` rates and `t = 1` the count
`n - 1 = 2 ^ 24 + 1` converts to the float `2 ^ 24`, and `getRate(1)` reads index
`2 ^ 24`, not `n - 1`. -/
theorem getRate_rounding_counterexample :
    round32 (7 / 10) = 11744051 / 16777216
    ∧ (0 : ℚ) ≤ 11744051 / 16777216 ∧ (11744051 / 16777216 : ℚ) ≤ 1
    ∧ getRateIdx binary32Ops (new [0, 1, 2, 3, 4, 5, 6, 7, 8, 9, 10] 11 0)
        (11744051 / 16777216) = 7
    ∧ ⌊(11744051 / 16777216 : ℚ) * ((11 : ℚ) - 1)⌋ = 6
    ∧ getRate binary32Ops (new [0, 1, 2, 3, 4, 5, 6, 7, 8, 9, 10] 11 0) (11744051 / 16777216)
        = some 7
    ∧ ([0, 1, 2, 3, 4, 5, 6, 7, 8, 9, 10] : List ℚ)[
        ⌊(11744051 / 16777216 : ℚ) * ((11 : ℚ) - 1)⌋.toNat]? = some 6
    ∧ getRateIdx binary32Ops (new ([] : List ℚ) (2 ^ 24 + 2) 0) 1 = 2 ^ 24
    ∧ ¬ ((getRateIdx binary32Ops (new ([] : List ℚ) (2 ^ 24 + 2) 0) 1 : Int)
          = (2 ^ 24 + 2) - 1) := by
  have hfl : ⌊(11744051 / 16777216 : ℚ) * ((11 : ℚ) - 1)⌋ = 6 := by norm_num
  have h7 : getRateIdx binary32Ops (new [0, 1, 2, 3, 4, 5, 6, 7, 8, 9, 10] 11 0)
      (11744051 / 16777216) = 7 := by
    have h := (getRateIdx_binary32 [0, 1, 2, 3, 4, 5, 6, 7, 8, 9, 10] 11 0
      (11744051 / 16777216) (by decide) (by decide) (by norm_num) (by norm_num)).1
    have e : (((11 : Int) : ℚ) - 1) = ((11 : ℚ) - 1) := by norm_num
    rw [e, round32_product_seven] at h
    have e7 : ⌊(7 : ℚ)⌋ = 7 := by norm_num
    rw [e7] at h
    omega
  have hbig : getRateIdx binary32Ops (new ([] : List ℚ) (2 ^ 24 + 2) 0) 1 = 2 ^ 24 := by
    have hns : (new ([] : List ℚ) (2 ^ 24 + 2) 0).numSamples = 16777218 := by decide
    have hsub : toSizeT (((16777218 : Nat) : Int) - 1) = 16777217 := by decide
    have hof : binary32Ops.ofSizeT 16777217 = (16777216 : ℚ) := by
      show round32 ((16777217 : Nat) : ℚ) = 16777216
      have : ((16777217 : Nat) : ℚ) = 16777217 := by norm_num
      rw [this]
      exact round32_tie
    have hmul : binary32Ops.mul 1 (16777216 : ℚ) = 16777216 := by
      show round32 (1 * 16777216) = 16777216
      rw [one_mul]
      have := round32_natCast 16777216 (by norm_num)
      simpa using this
    have hti : binary32Ops.toInt (16777216 : ℚ) = 16777216 := by
      show (if (0 : ℚ) ≤ 16777216 then Rat.floor 16777216 else - Rat.floor (- 16777216)) = _
      rw [if_pos (by norm_num)]
      rfl
    simp only [getRateIdx]
    rw [hns, hsub, hof, hmul, hti]
    decide
  refine ⟨round32_seven_tenths, by norm_num, by norm_num, h7, hfl, ?_, ?_, hbig, ?_⟩
  · unfold getRate
    rw [h7]
    rfl
  · rw [hfl]
    rfl
  · rw [hbig]
    norm_num

end RateCurveClaims

/-! ## Properties of `GetBestBlockSize` -/

/-- The halving loop brackets its argument between two consecutive powers of two. -/
theorem floorLog2Aux_spec (fuel x : Nat) (h1 : 1 ≤ x) (h2 : x < 2 ^ fuel) :
    2 ^ floorLog2Aux fuel x ≤ x ∧ x < 2 ^ (floorLog2Aux fuel x + 1) := by
  induction fuel generalizing x with
  | zero => simp at h2; omega
  | succ f ih =>
    unfold floorLog2Aux
    split_ifs with h
    · have hx : x / 2 < 2 ^ f := by
        rw [pow_succ] at h2; omega
      obtain ⟨a, b⟩ := ih (x / 2) (by omega) hx
      constructor
      · rw [pow_succ]; omega
      · rw [pow_succ]; omega
    · simp; omega

/-- C9 (amended): for every `start` and `end` with `1 <= end - start < 2 ^ 31`,
`GetBestBlockSize(start, end)` is the largest power of two not exceeding
`end - start`: the result `p` is a power of two with `p <= end - start < 2 * p`. -/
theorem GetBestBlockSize_pow2 (start end_ : sampleCount)
    (h1 : 1 ≤ (sampleCount.sub end_ start).as_long_long)
    (h2 : (sampleCount.sub end_ start).as_long_long < 2 ^ 31) :
    ∃ k p, GetBestBlockSize start end_ = some p ∧ p = 2 ^ k
      ∧ (p : Int) ≤ (sampleCount.sub end_ start).as_long_long
      ∧ (sampleCount.sub end_ start).as_long_long < 2 * (p : Int) := by
  generalize hd : (sampleCount.sub end_ start).as_long_long = d at h1 h2
  obtain ⟨x, rfl⟩ : ∃ x : Nat, d = x := ⟨d.toNat, by omega⟩
  have hx1 : 1 ≤ x := by omega
  have hx2 : x < 2 ^ 31 := by exact_mod_cast h2
  obtain ⟨a, b⟩ := floorLog2Aux_spec 64 x hx1 (by omega)
  have hk : floorLog2 x < 31 := by
    by_contra hcon
    have : 2 ^ 31 ≤ 2 ^ floorLog2 x := Nat.pow_le_pow_right (by norm_num) (by omega)
    unfold floorLog2 at this
    omega
  have hp : (2 : Nat) ^ floorLog2 x < 2 ^ 31 := by unfold floorLog2; omega
  refine ⟨floorLog2 x, 2 ^ floorLog2 x, ?_, rfl, ?_, ?_⟩
  · simp only [GetBestBlockSize, hd, shlOneInt]
    have : ¬ ((x : Int) < 1) := by omega
    simp only [this, if_false, Int.toNat_ofNat]
    have hk32 : floorLog2 x < 32 := by omega
    simp only [hk32, if_true, Option.map_some']
    congr 1
    have hc : ((2 : Int) ^ floorLog2 x) = ((2 ^ floorLog2 x : Nat) : Int) := by push_cast; rfl
    rw [hc]
    generalize (2 : Nat) ^ floorLog2 x = p at hp
    unfold toSizeT wrap32
    omega
  · unfold floorLog2; exact_mod_cast a
  · have b1 : x < 2 * 2 ^ floorLog2 x := by
      unfold floorLog2; rw [pow_succ] at b; omega
    exact_mod_cast b1

/-- C9, the amended statement at `start = 0`, `end = 5`. -/
theorem GetBestBlockSize_pow2_witness :
    ∃ k p, GetBestBlockSize ⟨0⟩ ⟨5⟩ = some p ∧ p = 2 ^ k
      ∧ (p : Int) ≤ (sampleCount.sub ⟨5⟩ ⟨0⟩).as_long_long
      ∧ (sampleCount.sub ⟨5⟩ ⟨0⟩).as_long_long < 2 * (p : Int) :=
  GetBestBlockSize_pow2 ⟨0⟩ ⟨5⟩ (by decide) (by decide)

/-- C9 as stated fails at `start = 0`, `end = 2 ^ 31`: the shift `1 << 31` is done
on an `int` and yields `INT_MIN`, which converts to the `size_t`
`2 ^ 64 - 2 ^ 31`; that is no power of two and exceeds `end - start`. -/
theorem GetBestBlockSize_overflow_counterexample :
    GetBestBlockSize ⟨0⟩ ⟨2 ^ 31⟩ = some (2 ^ 64 - 2 ^ 31)
    ∧ ¬ ∃ k p, GetBestBlockSize ⟨0⟩ ⟨2 ^ 31⟩ = some p ∧ p = 2 ^ k
      ∧ (p : Int) ≤ (sampleCount.sub ⟨2 ^ 31⟩ ⟨0⟩).as_long_long
      ∧ (sampleCount.sub ⟨2 ^ 31⟩ ⟨0⟩).as_long_long < 2 * (p : Int) := by
  have h : GetBestBlockSize ⟨0⟩ ⟨2 ^ 31⟩ = some (2 ^ 64 - 2 ^ 31) := by decide
  refine ⟨h, ?_⟩
  rintro ⟨k, p, hp, -, hle, -⟩
  rw [h] at hp
  have hp2 : p = 2 ^ 64 - 2 ^ 31 := by injection hp with hp; exact hp.symm
  have hd : (sampleCount.sub ⟨2 ^ 31⟩ ⟨0⟩).as_long_long = 2 ^ 31 := by decide
  rw [hd, hp2] at hle
  norm_num at hle

/-! ## Array writes: arrays of arrays and the frame buffer of `resampleCB` -/

section ReaderLemmas

variable {D F : Type}

/-- Reading `a[i][c]` in an array of arrays depends only on the inner array at `i`. -/
theorem frameAt_congr (b1 b2 : List (List F)) (i c : Nat) (h : b1[i]? = b2[i]?) :
    frameAt b1 i c = frameAt b2 i c := by
  unfold frameAt; rw [h]

theorem setSample_length (b : List (List F)) (i c : Nat) (v : F) :
    (setSample b i c v).length = b.length := by
  unfold setSample
  cases b[i]? with
  | none => rfl
  | some fr => simp

theorem setSample_getElem?_ne (b : List (List F)) (i c : Nat) (v : F) (j : Nat) (h : j ≠ i) :
    (setSample b i c v)[j]? = b[j]? := by
  unfold setSample
  cases b[i]? with
  | none => rfl
  | some fr => simp [List.getElem?_set_ne (Ne.symm h)]

/-- Effect of one write `a[i][c] = v` on every element of an array of arrays. -/
theorem frameAt_setSample (b : List (List F)) (i c : Nat) (v : F) (j d : Nat) :
    frameAt (setSample b i c v) j d =
      if j = i ∧ d = c ∧ (frameAt b i c).isSome = true then some v else frameAt b j d := by
  by_cases hj : j = i
  · subst hj
    unfold setSample frameAt
    cases hb : b[j]? with
    | none => simp [hb]
    | some fr =>
      have hlt : j < b.length := by
        by_contra hcon
        rw [List.getElem?_eq_none (by omega)] at hb
        cases hb
      simp only [List.getElem?_set, hlt, if_true, true_and]
      by_cases hd : d = c
      · subst hd
        by_cases hdl : d < fr.length
        · simp [hdl, List.getElem?_eq_getElem]
        · simp [List.getElem?_eq_none (Nat.le_of_not_lt hdl)]
          omega
      · simp [hd, List.getElem?_set_ne (Ne.symm hd)]
        intro h
        exact absurd h.symm hd
  · rw [frameAt_congr _ _ j d (setSample_getElem?_ne b i c v j hj)]
    simp [hj]

/-- Frame `i`, slot `d` lies below the end of frame `n - 1` when `i < n` and the
slot is inside the frame. -/
theorem slot_lt (w i n d : Nat) (hi : i < n) (hd : d < w) : w * i + d < w * n := by
  have h1 : w * (i + 1) ≤ w * n := Nat.mul_le_mul_left w hi
  rw [Nat.mul_succ] at h1
  omega

theorem setAudio_length (w : Nat) (b : List F) (i c : Nat) (v : F) :
    (setAudio w b i c v).length = b.length := by
  unfold setAudio
  exact List.length_set _ _ _

theorem setAudio_getElem?_ne (w : Nat) (b : List F) (i c : Nat) (v : F) (k : Nat)
    (h : w * i + c ≠ k) : (setAudio w b i c v)[k]? = b[k]? := by
  unfold setAudio
  exact List.getElem?_set_ne h

theorem setAudio_getElem?_self (w : Nat) (b : List F) (i c : Nat) (v : F)
    (h : w * i + c < b.length) : (setAudio w b i c v)[w * i + c]? = some v := by
  unfold setAudio
  exact List.getElem?_set_self h

/-- Effect of the inner loop: the length of the buffer is kept, every position
outside the `channels` floats that start at frame `i` is kept, and the float of
channel `c` takes the input sample when the position is inside the buffer. -/
theorem writeFrame_spec (fo : FloatOps D F) (w : Nat) (r : ResampleBuf D F) (i o : Nat)
    (b : List F) :
    (writeFrame fo w r i o b).length = b.length
    ∧ (∀ k : Nat, (k < w * i ∨ w * i + r.channels ≤ k) → (writeFrame fo w r i o b)[k]? = b[k]?)
    ∧ (∀ (c : Nat) (v : D), c < r.channels → sampleAt r c o = some v → w * i + c < b.length →
        (writeFrame fo w r i o b)[w * i + c]? = some (fo.narrow v)) := by
  unfold writeFrame
  induction r.channels with
  | zero =>
    refine ⟨rfl, fun _ _ => rfl, ?_⟩
    intro c v hc
    omega
  | succ n ih =>
    obtain ⟨ih1, ih2, ih3⟩ := ih
    rw [List.range_succ, List.foldl_append]
    simp only [List.foldl_cons, List.foldl_nil]
    cases hs : sampleAt r n o with
    | none =>
      simp only []
      refine ⟨ih1, fun k hk => ih2 k (by omega), ?_⟩
      intro c v hc hv hlt
      have hcn : c ≠ n := by
        intro h
        rw [h, hs] at hv
        cases hv
      exact ih3 c v (by omega) hv hlt
    | some x =>
      simp only []
      refine ⟨by rw [setAudio_length, ih1], ?_, ?_⟩
      · intro k hk
        rw [setAudio_getElem?_ne _ _ _ _ _ _ (by omega)]
        exact ih2 k (by omega)
      · intro c v hc hv hlt
        by_cases hcn : c = n
        · subst hcn
          rw [hs] at hv
          cases hv
          exact setAudio_getElem?_self _ _ _ _ _ (by rw [ih1]; exact hlt)
        · rw [setAudio_getElem?_ne _ _ _ _ _ _ (by omega)]
          exact ih3 c v (by omega) hv hlt

end ReaderLemmas

section LoopLemmas

variable {D F : Type}

/-- The loop test `o < r->end` for a position below `end`. -/
theorem lt_ofSizeT (o : Nat) (e : sampleCount) (h1 : (o : Int) < e.value)
    (h2 : e.value < 2 ^ 63) : sampleCount.lt (sampleCount.ofSizeT o) e = true := by
  unfold sampleCount.lt sampleCount.ofSizeT
  have hw : wrap64 (o : Int) = o := wrap64_of_range _ (by omega) (by omega)
  apply decide_eq_true
  show wrap64 (o : Int) < e.value
  rw [hw]
  exact h1

theorem convertLoop_length (fo : FloatOps D F) (w : Nat) (r : ResampleBuf D F)
    (n fuel i o : Nat) (b : List F) : (convertLoop fo w r n fuel i o b).length = b.length := by
  induction fuel generalizing i o b with
  | zero => rfl
  | succ f ih =>
    unfold convertLoop
    split
    · rw [ih, (writeFrame_spec fo w r i o b).1]
    · rfl

/-- The outer loop, entered at frame `i` and bounded by `n`, keeps every float
below frame `i` and, when a frame has room for every channel, every float from
frame `n` on. -/
theorem convertLoop_getElem?_out (fo : FloatOps D F) (w : Nat) (r : ResampleBuf D F)
    (n fuel i o : Nat) (b : List F) (k : Nat)
    (h : k < w * i ∨ (r.channels ≤ w ∧ w * n ≤ k)) :
    (convertLoop fo w r n fuel i o b)[k]? = b[k]? := by
  induction fuel generalizing i o b with
  | zero => rfl
  | succ f ih =>
    unfold convertLoop
    split
    · next hc =>
      have h1 : w * (i + 1) ≤ w * n := Nat.mul_le_mul_left w hc.1
      have h2 : w * (i + 1) = w * i + w := Nat.mul_succ w i
      rw [ih (i + 1) _ _ (by omega), (writeFrame_spec fo w r i o b).2.1 k (by omega)]
    · rfl

/-- Contents of the frames the outer loop writes. -/
theorem audioAt_convertLoop (fo : FloatOps D F) (w : Nat) (r : ResampleBuf D F) (n off : Nat)
    (hend : (off : Int) + n ≤ r.end_.value) (hmax : r.end_.value < 2 ^ 63)
    (hw : r.channels ≤ w) (fuel i : Nat) (b : List F) (hcap : w * n ≤ b.length)
    (hfuel : n ≤ fuel + i) (j d : Nat) (hij : i ≤ j) (hjn : j < n) (hd : d < r.channels)
    (v : D) (hv : sampleAt r d (off + j) = some v) :
    audioAt w (convertLoop fo w r n fuel i (off + i) b) j d = some (fo.narrow v) := by
  induction fuel generalizing i b with
  | zero => omega
  | succ f ih =>
    unfold convertLoop
    have hc : i < n ∧ sampleCount.lt (sampleCount.ofSizeT (off + i)) r.end_ = true :=
      ⟨by omega, lt_ofSizeT _ _ (by push_cast; omega) hmax⟩
    rw [if_pos hc]
    have ho : (off + i + 1) % 2 ^ 64 = off + (i + 1) := by
      have : off + i + 1 < 2 ^ 64 := by
        have : ((off + i + 1 : Nat) : Int) < 2 ^ 64 := by push_cast; omega
        exact_mod_cast this
      rw [Nat.mod_eq_of_lt this]; omega
    rw [ho]
    have hlen := (writeFrame_spec fo w r i (off + i) b).1
    by_cases hji : j = i
    · subst hji
      unfold audioAt
      have h2 : w * (j + 1) = w * j + w := Nat.mul_succ w j
      rw [convertLoop_getElem?_out fo w r n f (j + 1) _ _ (w * j + d) (Or.inl (by omega))]
      exact (writeFrame_spec fo w r j (off + j) b).2.2 d v hd hv
        (by have := slot_lt w j n d hjn (by omega); omega)
    · exact ih (i + 1) _ (by rw [hlen]; exact hcap) (by omega) (by omega)

end LoopLemmas

/-! ## One call of `resampleCB` -/

section StepLemmas

variable {D F : Type}

theorem sub_value (a b : sampleCount) (h1 : -2 ^ 63 ≤ a.value - b.value)
    (h2 : a.value - b.value < 2 ^ 63) : sampleCount.sub a b = ⟨a.value - b.value⟩ := by
  unfold sampleCount.sub
  rw [wrap64_of_range _ h1 h2]

theorem add_ofSizeT_value (a : sampleCount) (n : Nat) (hn : n < 2 ^ 63)
    (h1 : -2 ^ 63 ≤ a.value + n) (h2 : a.value + n < 2 ^ 63) :
    (sampleCount.add a (sampleCount.ofSizeT n)).value = a.value + n := by
  unfold sampleCount.add sampleCount.ofSizeT
  show wrap64 (a.value + wrap64 (n : Int)) = a.value + n
  rw [wrap64_of_range (n : Int) (by omega) (by omega), wrap64_of_range _ h1 h2]

/-- The block size after limiting, for a reader inside its range. -/
theorem reader_limit (r : ResampleBuf D F) (h0 : 0 ≤ r.offset.value)
    (h1 : r.offset.value ≤ r.end_.value) (h2 : r.end_.value < 2 ^ 63)
    (hb : r.blockSize < 2 ^ 63) :
    (limitSampleBufferSize r.blockSize (sampleCount.sub r.end_ r.offset) : Int)
      = min (r.blockSize : Int) (r.end_.value - r.offset.value) := by
  rw [sub_value _ _ (by omega) (by omega),
    limitSampleBufferSize_cast _ _ hb (by omega) (by omega)]
  omega

theorem resampleCB_fst (fo : FloatOps D F) (w : Nat) (iface : Iface F) (r : ResampleBuf D F) :
    (resampleCB fo w iface r).1
      = wrap64 (limitSampleBufferSize r.blockSize (sampleCount.sub r.end_ r.offset) : Int) := by
  unfold resampleCB
  rfl

theorem resampleCB_size (fo : FloatOps D F) (w : Nat) (iface : Iface F) (r : ResampleBuf D F) :
    (resampleCB fo w iface r).2.1.size = (resampleCB fo w iface r).1 := by
  unfold resampleCB
  rfl

theorem resampleCB_buf (fo : FloatOps D F) (w : Nat) (iface : Iface F) (r : ResampleBuf D F) :
    (resampleCB fo w iface r).2.2.buf
      = convertLoop fo w r (limitSampleBufferSize r.blockSize (sampleCount.sub r.end_ r.offset))
          (limitSampleBufferSize r.blockSize (sampleCount.sub r.end_ r.offset)) 0
          r.offset.as_size_t r.buf := by
  simp only [resampleCB]

theorem resampleCB_data_buf (fo : FloatOps D F) (w : Nat) (iface : Iface F) (r : ResampleBuf D F) :
    (resampleCB fo w iface r).2.1.buf = (resampleCB fo w iface r).2.2.buf := by
  unfold resampleCB
  rfl

theorem resampleCB_offset (fo : FloatOps D F) (w : Nat) (iface : Iface F) (r : ResampleBuf D F) :
    (resampleCB fo w iface r).2.2.offset
      = sampleCount.add r.offset (sampleCount.ofSizeT
          (limitSampleBufferSize r.blockSize (sampleCount.sub r.end_ r.offset))) := by
  unfold resampleCB
  rfl

theorem resampleCB_processed (fo : FloatOps D F) (w : Nat) (iface : Iface F) (r : ResampleBuf D F) :
    (resampleCB fo w iface r).2.2.processed
      = sampleCount.add r.processed (sampleCount.ofSizeT
          (limitSampleBufferSize r.blockSize (sampleCount.sub r.end_ r.offset))) := by
  unfold resampleCB
  rfl

theorem resampleCB_frame_fields (fo : FloatOps D F) (w : Nat) (iface : Iface F)
    (r : ResampleBuf D F) :
    (resampleCB fo w iface r).2.2.blockSize = r.blockSize
    ∧ (resampleCB fo w iface r).2.2.end_ = r.end_
    ∧ (resampleCB fo w iface r).2.2.channels = r.channels
    ∧ (resampleCB fo w iface r).2.2.sampleBuf = r.sampleBuf := by
  cases r
  exact ⟨rfl, rfl, rfl, rfl⟩

theorem resampleCB_count (fo : FloatOps D F) (w : Nat) (iface : Iface F) (r : ResampleBuf D F)
    (h0 : 0 ≤ r.offset.value) (h1 : r.offset.value ≤ r.end_.value) (h2 : r.end_.value < 2 ^ 63)
    (hb : r.blockSize < 2 ^ 63) :
    (resampleCB fo w iface r).1 = min (r.blockSize : Int) (r.end_.value - r.offset.value) := by
  rw [resampleCB_fst, reader_limit r h0 h1 h2 hb]
  exact wrap64_of_range _ (by omega) (by omega)

theorem resampleCB_offset_value (fo : FloatOps D F) (w : Nat) (iface : Iface F)
    (r : ResampleBuf D F)
    (h0 : 0 ≤ r.offset.value) (h1 : r.offset.value ≤ r.end_.value) (h2 : r.end_.value < 2 ^ 63)
    (hb : r.blockSize < 2 ^ 63) :
    (resampleCB fo w iface r).2.2.offset.value
      = r.offset.value + min (r.blockSize : Int) (r.end_.value - r.offset.value) := by
  have hl := reader_limit r h0 h1 h2 hb
  rw [resampleCB_offset, add_ofSizeT_value _ _ (by omega) (by omega) (by omega), hl]

theorem resampleCB_processed_value (fo : FloatOps D F) (w : Nat) (iface : Iface F)
    (r : ResampleBuf D F)
    (h0 : 0 ≤ r.offset.value) (h1 : r.offset.value ≤ r.end_.value) (h2 : r.end_.value < 2 ^ 63)
    (hb : r.blockSize < 2 ^ 63) (hp0 : 0 ≤ r.processed.value)
    (hp1 : r.processed.value ≤ r.offset.value) :
    (resampleCB fo w iface r).2.2.processed.value
      = r.processed.value + min (r.blockSize : Int) (r.end_.value - r.offset.value) := by
  have hl := reader_limit r h0 h1 h2 hb
  rw [resampleCB_processed, add_ofSizeT_value _ _ (by omega) (by omega) (by omega), hl]

end StepLemmas

section ReaderClaims

variable {D F : Type}

theorem as_size_t_toNat (a : sampleCount) (h0 : 0 ≤ a.value) (h1 : a.value < 2 ^ 63) :
    a.as_size_t = a.value.toNat := by
  unfold sampleCount.as_size_t toSizeT
  rw [Int.emod_eq_of_lt h0 (by omega)]

theorem sampleAt_some (r : ResampleBuf D F) (c j : Nat) (hc : c < r.channels)
    (hnch : r.channels ≤ r.sampleBuf.length)
    (hch : ∀ ch ∈ r.sampleBuf, r.end_.value ≤ (ch.length : Int))
    (hj : (j : Int) < r.end_.value) : ∃ v, sampleAt r c j = some v := by
  have hc1 : c < r.sampleBuf.length := by omega
  have hlen := hch _ (List.getElem_mem hc1)
  have hj1 : j < (r.sampleBuf[c]).length := by omega
  refine ⟨(r.sampleBuf[c])[j], ?_⟩
  unfold sampleAt
  rw [List.getElem?_eq_getElem hc1]
  exact List.getElem?_eq_getElem hj1

/-- The frames below the returned count hold the input samples from `offset` on. -/
theorem resampleCB_content (fo : FloatOps D F) (w : Nat) (iface : Iface F) (r : ResampleBuf D F)
    (h0 : 0 ≤ r.offset.value) (h1 : r.offset.value ≤ r.end_.value) (h2 : r.end_.value < 2 ^ 63)
    (hb : r.blockSize < 2 ^ 63)
    (hsamp : ∀ c j : Nat, c < r.channels → (j : Int) < r.end_.value →
      ∃ v, sampleAt r c j = some v)
    (hw : r.channels ≤ w) (hcap : w * r.blockSize ≤ r.buf.length)
    (i c : Nat) (hi : (i : Int) < (resampleCB fo w iface r).1) (hc1 : c < r.channels) :
    ∃ v, sampleAt r c (r.offset.value.toNat + i) = some v
      ∧ audioAt w (resampleCB fo w iface r).2.2.buf i c = some (fo.narrow v) := by
  have hc := resampleCB_count fo w iface r h0 h1 h2 hb
  have hl := reader_limit r h0 h1 h2 hb
  have hbuf := resampleCB_buf fo w iface r
  have hoff := as_size_t_toNat r.offset h0 (by omega)
  rw [hc] at hi
  rw [hbuf, hoff]
  clear hc hbuf hoff
  generalize limitSampleBufferSize r.blockSize (sampleCount.sub r.end_ r.offset) = n at hl
  have hin : i < n := by omega
  have hnb : n ≤ r.blockSize := by omega
  have hcap1 : w * n ≤ r.buf.length := le_trans (Nat.mul_le_mul_left w hnb) hcap
  obtain ⟨v, hv⟩ := hsamp c (r.offset.value.toNat + i) hc1 (by push_cast; omega)
  refine ⟨v, hv, ?_⟩
  have := audioAt_convertLoop fo w r n r.offset.value.toNat (by omega) h2 hw n 0 r.buf hcap1
    (by omega) i c (by omega) hin hc1 v hv
  rw [Nat.add_zero] at this
  exact this

/-- The floats from frame `count` on are left as they were. -/
theorem resampleCB_rest (fo : FloatOps D F) (w : Nat) (iface : Iface F) (r : ResampleBuf D F)
    (hw : r.channels ≤ w) (n : Nat)
    (hn : limitSampleBufferSize r.blockSize (sampleCount.sub r.end_ r.offset) ≤ n)
    (i c : Nat) (hi : n ≤ i) :
    audioAt w (resampleCB fo w iface r).2.2.buf i c = audioAt w r.buf i c := by
  rw [resampleCB_buf]
  unfold audioAt
  have h1 : w * limitSampleBufferSize r.blockSize (sampleCount.sub r.end_ r.offset) ≤ w * i :=
    Nat.mul_le_mul_left w (le_trans hn hi)
  exact convertLoop_getElem?_out fo w r _ _ 0 _ r.buf (w * i + c) (Or.inr ⟨hw, by omega⟩)

/-- C2 (amended): for every reader state with `0 <= offset <= end` and a block size
below `2 ^ 63`, one call of `resampleCB` returns `min(blockSize, end - offset)`,
sets the frame size to that count and leaves the new offset at most `end`; it
returns 0 when `offset = end` and never more frames than remain. -/
theorem resampleCB_frame_count (fo : FloatOps D F) (w : Nat) (iface : Iface F) (r : ResampleBuf D F)
    (h0 : 0 ≤ r.offset.value) (h1 : r.offset.value ≤ r.end_.value) (h2 : r.end_.value < 2 ^ 63)
    (hb : r.blockSize < 2 ^ 63) :
    (resampleCB fo w iface r).1 = min (r.blockSize : Int) (r.end_.value - r.offset.value)
    ∧ (resampleCB fo w iface r).2.1.size = (resampleCB fo w iface r).1
    ∧ (resampleCB fo w iface r).2.2.offset.value ≤ r.end_.value
    ∧ (r.offset.value = r.end_.value → (resampleCB fo w iface r).1 = 0)
    ∧ (resampleCB fo w iface r).1 ≤ r.end_.value - r.offset.value := by
  have hc := resampleCB_count fo w iface r h0 h1 h2 hb
  have ho := resampleCB_offset_value fo w iface r h0 h1 h2 hb
  refine ⟨hc, resampleCB_size fo w iface r, ?_, ?_, ?_⟩
  · rw [ho]; omega
  · intro he; rw [hc]; omega
  · rw [hc]; omega

/-- C2, the amended statement for `demoReader`. -/
theorem resampleCB_frame_count_witness :
    (resampleCB exactOps 2 demoIface demoReader).1
      = min (demoReader.blockSize : Int) (demoReader.end_.value - demoReader.offset.value)
    ∧ (resampleCB exactOps 2 demoIface demoReader).2.1.size
      = (resampleCB exactOps 2 demoIface demoReader).1
    ∧ (resampleCB exactOps 2 demoIface demoReader).2.2.offset.value ≤ demoReader.end_.value
    ∧ (demoReader.offset.value = demoReader.end_.value
        → (resampleCB exactOps 2 demoIface demoReader).1 = 0)
    ∧ (resampleCB exactOps 2 demoIface demoReader).1
        ≤ demoReader.end_.value - demoReader.offset.value :=
  resampleCB_frame_count exactOps 2 demoIface demoReader (by decide) (by decide) (by decide)
    (by decide)

/-- C2 as stated fails for `wideReader` (`offset = 0`, `end = 1`,
`blockSize = 2 ^ 63`): the call returns `-2 ^ 63`, not `min(blockSize, 1) = 1`. -/
theorem resampleCB_wide_block_counterexample :
    0 ≤ wideReader.offset.value ∧ wideReader.offset.value ≤ wideReader.end_.value
    ∧ (resampleCB exactOps 2 demoIface wideReader).1 = -2 ^ 63
    ∧ ¬ ((resampleCB exactOps 2 demoIface wideReader).1
          = min (wideReader.blockSize : Int)
              (wideReader.end_.value - wideReader.offset.value)) := by
  decide

/-- C3 (amended): for a reader state with `0 <= offset <= end`, `end` at most the
length of every channel array, a frame buffer (an array in memory, so of fewer
than `2 ^ 63` floats) of capacity at least `blockSize` frames, and a channel
count of at most the `w` floats of an `audio` frame, one call of `resampleCB`
returning `n` writes frame `i`, channel `c` with the input sample
`sampleBuf[c][offset + i]` (narrowed to `float`) for every `i < n` and every
channel `c`, leaves every frame at index `n` or above as it was, and leaves the
input channel arrays unchanged. -/
theorem resampleCB_copies_frames (fo : FloatOps D F) (w : Nat) (iface : Iface F)
    (r : ResampleBuf D F)
    (h0 : 0 ≤ r.offset.value) (h1 : r.offset.value ≤ r.end_.value) (h2 : r.end_.value < 2 ^ 63)
    (hnch : r.channels ≤ r.sampleBuf.length)
    (hch : ∀ ch ∈ r.sampleBuf, r.end_.value ≤ (ch.length : Int))
    (hcap : w * r.blockSize ≤ r.buf.length) (hmem : r.buf.length < 2 ^ 63)
    (hw : r.channels ≤ w) :
    (∀ i c : Nat, (i : Int) < (resampleCB fo w iface r).1 → c < r.channels →
      ∃ v, sampleAt r c (r.offset.value.toNat + i) = some v
        ∧ audioAt w (resampleCB fo w iface r).2.1.buf i c = some (fo.narrow v))
    ∧ (∀ i c : Nat, (resampleCB fo w iface r).1 ≤ (i : Int) → c < w →
        audioAt w (resampleCB fo w iface r).2.1.buf i c = audioAt w r.buf i c)
    ∧ (resampleCB fo w iface r).2.1.buf.length = r.buf.length
    ∧ (resampleCB fo w iface r).2.2.sampleBuf = r.sampleBuf
    ∧ (resampleCB fo w iface r).2.2.buf = (resampleCB fo w iface r).2.1.buf := by
  have hb : 0 < w → r.blockSize < 2 ^ 63 := by
    intro hw0
    have : 1 * r.blockSize ≤ w * r.blockSize := Nat.mul_le_mul_right _ hw0
    omega
  have hdb := resampleCB_data_buf fo w iface r
  refine ⟨?_, ?_, ?_, (resampleCB_frame_fields fo w iface r).2.2.2, hdb.symm⟩
  · intro i c hi hc1
    rw [hdb]
    exact resampleCB_content fo w iface r h0 h1 h2 (hb (by omega))
      (fun c j hc2 hj => sampleAt_some r c j hc2 hnch hch hj) hw hcap i c hi hc1
  · intro i c hi hc1
    have hc := resampleCB_count fo w iface r h0 h1 h2 (hb (by omega))
    have hl := reader_limit r h0 h1 h2 (hb (by omega))
    rw [hc] at hi
    rw [hdb]
    clear hc hdb
    exact resampleCB_rest fo w iface r hw i (by omega) i c (le_refl _)
  · rw [hdb, resampleCB_buf]
    exact convertLoop_length _ _ _ _ _ _ _ _

/-- C3, the amended statement for `demoReader` and frames of two floats. -/
theorem resampleCB_copies_frames_witness :
    (∀ i c : Nat, (i : Int) < (resampleCB exactOps 2 demoIface demoReader).1 →
      c < demoReader.channels →
      ∃ v, sampleAt demoReader c (demoReader.offset.value.toNat + i) = some v
        ∧ audioAt 2 (resampleCB exactOps 2 demoIface demoReader).2.1.buf i c
            = some (exactOps.narrow v))
    ∧ (∀ i c : Nat, (resampleCB exactOps 2 demoIface demoReader).1 ≤ (i : Int) → c < 2 →
        audioAt 2 (resampleCB exactOps 2 demoIface demoReader).2.1.buf i c
          = audioAt 2 demoReader.buf i c)
    ∧ (resampleCB exactOps 2 demoIface demoReader).2.1.buf.length = demoReader.buf.length
    ∧ (resampleCB exactOps 2 demoIface demoReader).2.2.sampleBuf = demoReader.sampleBuf
    ∧ (resampleCB exactOps 2 demoIface demoReader).2.2.buf
        = (resampleCB exactOps 2 demoIface demoReader).2.1.buf :=
  resampleCB_copies_frames exactOps 2 demoIface demoReader (by decide) (by decide) (by decide)
    (by decide) (by decide) (by decide) (by decide) (by decide)

/-- C3 as stated fails for `trioReader` (three channels, `offset = 0`, `end = 2`,
channel arrays of two samples, a buffer of three frames, `blockSize = 2`) with
the two-float frames of the SBSMS library: the call returns 2 and leaves the
buffer `1 4 | 2 5 | 8 0`.  Channel 2 of frame 0 is the float after frame 0, which
holds 2 and not the input sample 7, and frame 2, at the returned count, has been
written. -/
theorem resampleCB_three_channel_counterexample :
    0 ≤ trioReader.offset.value ∧ trioReader.offset.value ≤ trioReader.end_.value
    ∧ (∀ ch ∈ trioReader.sampleBuf, trioReader.end_.value ≤ (ch.length : Int))
    ∧ 2 * trioReader.blockSize ≤ trioReader.buf.length
    ∧ (resampleCB exactOps 2 demoIface trioReader).1 = 2
    ∧ (resampleCB exactOps 2 demoIface trioReader).2.1.buf = [1, 4, 2, 5, 8, 0]
    ∧ sampleAt trioReader 2 0 = some 7
    ∧ audioAt 2 (resampleCB exactOps 2 demoIface trioReader).2.1.buf 0 2 = some 2
    ∧ audioAt 2 (resampleCB exactOps 2 demoIface trioReader).2.1.buf 2 0 = some 8
    ∧ audioAt 2 trioReader.buf 2 0 = some 0
    ∧ ¬ ((∀ i c : Nat, (i : Int) < (resampleCB exactOps 2 demoIface trioReader).1 →
          c < trioReader.channels →
          ∃ v, sampleAt trioReader c (trioReader.offset.value.toNat + i) = some v
            ∧ audioAt 2 (resampleCB exactOps 2 demoIface trioReader).2.1.buf i c
                = some (exactOps.narrow v))
        ∧ (∀ i c : Nat, (resampleCB exactOps 2 demoIface trioReader).1 ≤ (i : Int) → c < 2 →
            audioAt 2 (resampleCB exactOps 2 demoIface trioReader).2.1.buf i c
              = audioAt 2 trioReader.buf i c)) := by
  have hcnt : (resampleCB exactOps 2 demoIface trioReader).1 = 2 := by decide
  have hbuf : (resampleCB exactOps 2 demoIface trioReader).2.1.buf = [1, 4, 2, 5, 8, 0] := by
    rfl
  have h8 : audioAt 2 (resampleCB exactOps 2 demoIface trioReader).2.1.buf 2 0 = some 8 := by
    rw [hbuf]; rfl
  have h0 : audioAt 2 trioReader.buf 2 0 = some 0 := by rfl
  refine ⟨by decide, by decide, by decide, by decide, hcnt, hbuf, rfl, by rw [hbuf]; rfl, h8, h0,
    ?_⟩
  rintro ⟨-, hrest⟩
  have := hrest 2 0 (by rw [hcnt]; norm_num) (by norm_num)
  rw [h8, h0] at this
  norm_num at this

end ReaderClaims

/-! ## Repeated calls of `resampleCB` -/

section PullLemmas

variable {D F : Type}

theorem sampleAt_congr (r1 r : ResampleBuf D F) (h : r1.sampleBuf = r.sampleBuf) (c j : Nat) :
    sampleAt r1 c j = sampleAt r c j := by
  unfold sampleAt; rw [h]

theorem frameAt_append (xs ys : List (List F)) (j c : Nat) :
    frameAt (xs ++ ys) j c
      = if j < xs.length then frameAt xs j c else frameAt ys (j - xs.length) c := by
  unfold frameAt
  rw [List.getElem?_append]
  by_cases h : j < xs.length
  · rw [if_pos h, if_pos h]
  · rw [if_neg h, if_neg h]

theorem delivered_length (w : Nat) (n : Int) (buf : List F) (channels : Nat) :
    (delivered w n buf channels).length = n.toNat := by
  unfold delivered
  rw [List.length_map, List.length_range]

/-- Channel `c` of delivered frame `j` is the float `buf[j][c]`. -/
theorem frameAt_delivered (w : Nat) (n : Int) (buf : List F) (channels j c : Nat)
    (hj : j < n.toNat) (hc : c < channels) :
    frameAt (delivered w n buf channels) j c = audioAt w buf j c := by
  unfold delivered frameAt audioAt
  rw [List.getElem?_map, List.getElem?_range hj]
  show ((buf.drop (w * j)).take channels)[c]? = buf[w * j + c]?
  rw [List.getElem?_take, if_pos hc, List.getElem?_drop]

theorem pull_succ (fo : FloatOps D F) (w : Nat) (iface : Iface F) (k : Nat) (r : ResampleBuf D F) :
    pull fo w iface (k + 1) r
      = (((resampleCB fo w iface r).1,
            delivered w (resampleCB fo w iface r).1 (resampleCB fo w iface r).2.1.buf r.channels)
          :: (pull fo w iface k (resampleCB fo w iface r).2.2).1,
         (pull fo w iface k (resampleCB fo w iface r).2.2).2) := by
  rw [pull]

/-- One call of `resampleCB` keeps the reader conditions. -/
theorem ReaderOK_step (fo : FloatOps D F) (w : Nat) (iface : Iface F) (start : Int)
    (r : ResampleBuf D F)
    (h : ReaderOK w start r) : ReaderOK w start (resampleCB fo w iface r).2.2 := by
  obtain ⟨hs, hso, h1, h2, hp, hb1, hb2, hcap, hsamp, hslot⟩ := h
  have h0 : 0 ≤ r.offset.value := by omega
  obtain ⟨fb, fe, fc, fs⟩ := resampleCB_frame_fields fo w iface r
  have ho := resampleCB_offset_value fo w iface r h0 h1 h2 hb2
  have hpv := resampleCB_processed_value fo w iface r h0 h1 h2 hb2 (by omega) (by omega)
  have hbuf := resampleCB_buf fo w iface r
  refine ⟨hs, ?_, ?_, ?_, ?_, ?_, ?_, ?_, ?_, ?_⟩
  · rw [ho]; omega
  · rw [ho, fe]; omega
  · rw [fe]; exact h2
  · rw [hpv, ho]; omega
  · rw [fb]; exact hb1
  · rw [fb]; exact hb2
  · rw [fb, hbuf, convertLoop_length]; exact hcap
  · intro c j hc hj
    rw [fc] at hc
    rw [fe] at hj
    rw [sampleAt_congr _ r fs]
    exact hsamp c j hc hj
  · rw [fc]; exact hslot

/-- One call of `resampleCB` from a reader satisfying `ReaderOK`, with the result named. -/
theorem resampleCB_step (fo : FloatOps D F) (w : Nat) (iface : Iface F) (start : Int)
    (r : ResampleBuf D F) (h : ReaderOK w start r) :
    ∃ (n : Nat) (data : SBSMSFrame F) (r1 : ResampleBuf D F),
      resampleCB fo w iface r = ((n : Int), data, r1)
      ∧ (n : Int) = min (r.blockSize : Int) (r.end_.value - r.offset.value)
      ∧ data.buf = r1.buf
      ∧ r1.offset.value = r.offset.value + n
      ∧ r1.blockSize = r.blockSize ∧ r1.end_ = r.end_ ∧ r1.channels = r.channels
      ∧ r1.sampleBuf = r.sampleBuf
      ∧ r1.buf.length = r.buf.length
      ∧ (∀ i c : Nat, i < n → c < r.channels →
          ∃ v, sampleAt r c (r.offset.value.toNat + i) = some v
            ∧ audioAt w r1.buf i c = some (fo.narrow v))
      ∧ ReaderOK w start r1 := by
  have hstep := ReaderOK_step fo w iface start r h
  obtain ⟨hs, hso, h1, h2, hp, hb1, hb2, hcap, hsamp, hslot⟩ := h
  have h0 : 0 ≤ r.offset.value := by omega
  have hcnt := resampleCB_count fo w iface r h0 h1 h2 hb2
  have ho := resampleCB_offset_value fo w iface r h0 h1 h2 hb2
  have hn : (((min (r.blockSize : Int) (r.end_.value - r.offset.value)).toNat : Nat) : Int)
      = min (r.blockSize : Int) (r.end_.value - r.offset.value) := by omega
  refine ⟨(min (r.blockSize : Int) (r.end_.value - r.offset.value)).toNat,
    (resampleCB fo w iface r).2.1, (resampleCB fo w iface r).2.2, ?_, hn,
    resampleCB_data_buf fo w iface r, ?_, (resampleCB_frame_fields fo w iface r).1,
    (resampleCB_frame_fields fo w iface r).2.1, (resampleCB_frame_fields fo w iface r).2.2.1,
    (resampleCB_frame_fields fo w iface r).2.2.2, ?_, ?_, hstep⟩
  · rw [hn, ← hcnt]
  · rw [ho, hn]
  · rw [resampleCB_buf, convertLoop_length]
  · intro i c hi hc
    exact resampleCB_content fo w iface r h0 h1 h2 hb2 hsamp hslot hcap i c
      (by rw [hcnt, ← hn]; exact_mod_cast hi) hc

theorem pull_succ_of (fo : FloatOps D F) (w : Nat) (iface : Iface F) (k : Nat) (r : ResampleBuf D F)
    (n : Int) (data : SBSMSFrame F) (r1 : ResampleBuf D F)
    (hres : resampleCB fo w iface r = (n, data, r1)) :
    pull fo w iface (k + 1) r
      = ((n, delivered w n data.buf r.channels) :: (pull fo w iface k r1).1,
         (pull fo w iface k r1).2) := by
  rw [pull_succ, hres]

/-- Offset and `processed` after `k` calls. -/
theorem pull_offset (fo : FloatOps D F) (w : Nat) (iface : Iface F) (start : Int) (k : Nat)
    (r : ResampleBuf D F) (h : ReaderOK w start r) :
    (pull fo w iface k r).2.offset.value
      = min r.end_.value (r.offset.value + (k : Int) * (r.blockSize : Int))
    ∧ (pull fo w iface k r).2.processed.value = (pull fo w iface k r).2.offset.value - start := by
  induction k generalizing r with
  | zero =>
    obtain ⟨hs, hso, h1, h2, hp, hb1, hb2, hcap, hsamp, hslot⟩ := h
    simp only [pull]
    constructor
    · omega
    · exact hp
  | succ k ih =>
    obtain ⟨n, data, r1, hres, hn, hdb, ho, fb, fe, fc, fs, hlen, hcont, hok⟩ :=
      resampleCB_step fo w iface start r h
    obtain ⟨hs, hso, h1, h2, hp, hb1, hb2, hcap, hsamp, hslot⟩ := h
    obtain ⟨iha, ihb⟩ := ih r1 hok
    rw [pull_succ_of fo w iface k r n data r1 hres]
    refine ⟨?_, ihb⟩
    show (pull fo w iface k r1).2.offset.value = _
    rw [iha, fe, fb, ho]
    have hk : (0 : Int) ≤ (k : Int) * (r.blockSize : Int) := by positivity
    have e : ((k + 1 : Nat) : Int) * (r.blockSize : Int)
        = (k : Int) * (r.blockSize : Int) + (r.blockSize : Int) := by push_cast; ring
    rw [e]
    omega

/-- Sum of the counts and number of delivered frames after `k` calls. -/
theorem pull_total (fo : FloatOps D F) (w : Nat) (iface : Iface F) (start : Int) (k : Nat)
    (r : ResampleBuf D F) (h : ReaderOK w start r) :
    totalCount (pull fo w iface k r).1 = (pull fo w iface k r).2.offset.value - r.offset.value
    ∧ ((allFrames (pull fo w iface k r).1).length : Int)
        = (pull fo w iface k r).2.offset.value - r.offset.value := by
  induction k generalizing r with
  | zero => simp [pull, totalCount, allFrames]
  | succ k ih =>
    obtain ⟨n, data, r1, hres, hn, hdb, ho, fb, fe, fc, fs, hlen, hcont, hok⟩ :=
      resampleCB_step fo w iface start r h
    obtain ⟨hs, hso, h1, h2, hp, hb1, hb2, hcap, hsamp, hslot⟩ := h
    obtain ⟨iha, ihb⟩ := ih r1 hok
    rw [pull_succ_of fo w iface k r n data r1 hres]
    simp only [totalCount, allFrames, List.length_append]
    constructor
    · rw [iha, ho]; omega
    · rw [delivered_length]
      push_cast
      rw [ihb, ho]; omega

end PullLemmas

section PullClaims

variable {D F : Type}

/-- The delivered frames are the input samples from the starting offset on, in order. -/
theorem pull_frames (fo : FloatOps D F) (w : Nat) (iface : Iface F) (start : Int) (k : Nat)
    (r : ResampleBuf D F) (h : ReaderOK w start r) (j c : Nat)
    (hj : j < (allFrames (pull fo w iface k r).1).length) (hc : c < r.channels) :
    ∃ v, sampleAt r c (r.offset.value.toNat + j) = some v
      ∧ frameAt (allFrames (pull fo w iface k r).1) j c = some (fo.narrow v) := by
  induction k generalizing r j with
  | zero => simp [pull, allFrames] at hj
  | succ k ih =>
    obtain ⟨n, data, r1, hres, hn, hdb, ho, fb, fe, fc, fs, hlen, hcont, hok⟩ :=
      resampleCB_step fo w iface start r h
    obtain ⟨hs, hso, h1, h2, hp, hb1, hb2, hcap, hsamp, hslot⟩ := h
    have hdl : (delivered w (n : Int) data.buf r.channels).length = n := by
      rw [delivered_length]
      exact Int.toNat_ofNat n
    have hpl : allFrames (pull fo w iface (k + 1) r).1
        = delivered w (n : Int) data.buf r.channels ++ allFrames (pull fo w iface k r1).1 := by
      rw [pull_succ_of fo w iface k r n data r1 hres, allFrames]
    rw [hpl] at hj ⊢
    rw [List.length_append, hdl] at hj
    rw [frameAt_append, hdl]
    by_cases hlt : j < n
    · rw [if_pos hlt, frameAt_delivered _ _ _ _ _ _ (by rw [Int.toNat_ofNat]; exact hlt) hc, hdb]
      exact hcont j c hlt hc
    · rw [if_neg hlt]
      obtain ⟨v, hv1, hv2⟩ := ih r1 hok (j - n) (by omega) (by rw [fc]; exact hc)
      refine ⟨v, ?_, hv2⟩
      rw [sampleAt_congr _ r fs, ho] at hv1
      have e : (r.offset.value + (n : Int)).toNat + (j - n) = r.offset.value.toNat + j := by
        omega
      rw [e] at hv1
      exact hv1

/-- Every returned count is non-negative, and 0 once the offset has reached `end`. -/
theorem pull_counts (fo : FloatOps D F) (w : Nat) (iface : Iface F) (start : Int) (k : Nat)
    (r : ResampleBuf D F) (h : ReaderOK w start r) (j : Nat) (m : Int)
    (hm : ((pull fo w iface k r).1.map Prod.fst)[j]? = some m) :
    0 ≤ m ∧ ((pull fo w iface j r).2.offset.value = r.end_.value → m = 0) := by
  induction k generalizing r j with
  | zero => simp [pull] at hm
  | succ k ih =>
    obtain ⟨n, data, r1, hres, hn, hdb, ho, fb, fe, fc, fs, hlen, hcont, hok⟩ :=
      resampleCB_step fo w iface start r h
    obtain ⟨hs, hso, h1, h2, hp, hb1, hb2, hcap, hsamp, hslot⟩ := h
    rw [pull_succ_of fo w iface k r n data r1 hres] at hm
    simp only [List.map_cons] at hm
    cases j with
    | zero =>
      simp only [List.getElem?_cons_zero, Option.some.injEq] at hm
      simp only [pull]
      constructor
      · omega
      · intro he; omega
    | succ j =>
      simp only [List.getElem?_cons_succ] at hm
      obtain ⟨a, b⟩ := ih r1 hok j hm
      refine ⟨a, ?_⟩
      rw [pull_succ_of fo w iface j r n data r1 hres]
      rw [fe] at b
      exact b

/-- C10 (amended): started at `offset = start` with `0 <= start <= end`,
`processed = 0`, a block size from 1 to below `2 ^ 63`, a channel count of at
most the `w` floats of an `audio` frame (the frame buffer holding `blockSize`
frames and the channel arrays `end` samples), `k` calls of `resampleCB` leave
the offset at `min(end, start + k * blockSize)` with `processed = offset - start`;
the returned counts sum to `offset - start`, the frames delivered so far are, in
order, the input samples at `start`, `start + 1`, ..., every count is
non-negative and is 0 once the offset has reached `end`, and once
`k * blockSize >= end - start` the counts sum to `end - start`. -/
theorem pull_delivers_in_order (fo : FloatOps D F) (w : Nat) (iface : Iface F)
    (r : ResampleBuf D F) (start : Int) (k : Nat)
    (hoff : r.offset.value = start) (h0 : 0 ≤ start) (h1 : start ≤ r.end_.value)
    (h2 : r.end_.value < 2 ^ 63) (hproc : r.processed.value = 0)
    (hb1 : 1 ≤ r.blockSize) (hb2 : r.blockSize < 2 ^ 63)
    (hnch : r.channels ≤ r.sampleBuf.length)
    (hch : ∀ ch ∈ r.sampleBuf, r.end_.value ≤ (ch.length : Int))
    (hcap : w * r.blockSize ≤ r.buf.length)
    (hw : r.channels ≤ w) :
    (pull fo w iface k r).2.offset.value
      = min r.end_.value (start + (k : Int) * (r.blockSize : Int))
    ∧ (pull fo w iface k r).2.processed.value = (pull fo w iface k r).2.offset.value - start
    ∧ totalCount (pull fo w iface k r).1 = (pull fo w iface k r).2.offset.value - start
    ∧ ((allFrames (pull fo w iface k r).1).length : Int)
        = (pull fo w iface k r).2.offset.value - start
    ∧ (∀ j c : Nat, j < (allFrames (pull fo w iface k r).1).length → c < r.channels →
        ∃ v, sampleAt r c (start.toNat + j) = some v
          ∧ frameAt (allFrames (pull fo w iface k r).1) j c = some (fo.narrow v))
    ∧ (∀ (j : Nat) (n : Int), ((pull fo w iface k r).1.map Prod.fst)[j]? = some n →
        0 ≤ n ∧ ((pull fo w iface j r).2.offset.value = r.end_.value → n = 0))
    ∧ (r.end_.value - start ≤ (k : Int) * (r.blockSize : Int) →
        totalCount (pull fo w iface k r).1 = r.end_.value - start
        ∧ ((allFrames (pull fo w iface k r).1).length : Int) = r.end_.value - start) := by
  have hok : ReaderOK w start r := by
    refine ⟨h0, by omega, by omega, h2, by omega, hb1, hb2, hcap, ?_, hw⟩
    intro c j hc hj
    exact sampleAt_some r c j hc hnch hch hj
  obtain ⟨ha, hb⟩ := pull_offset fo w iface start k r hok
  obtain ⟨hc, hd⟩ := pull_total fo w iface start k r hok
  rw [hoff] at ha hc hd
  refine ⟨ha, hb, hc, hd, ?_, ?_, ?_⟩
  · intro j c hj hc1
    have := pull_frames fo w iface start k r hok j c hj hc1
    rw [hoff] at this
    exact this
  · intro j n hn
    exact pull_counts fo w iface start k r hok j n hn
  · intro hk
    rw [hc, hd, ha]
    omega

/-- C10, the amended statement for three calls on `demoReader` and frames of two
floats. -/
theorem pull_delivers_in_order_witness :
    (pull exactOps 2 demoIface 3 demoReader).2.offset.value
      = min demoReader.end_.value (0 + ((3 : Nat) : Int) * (demoReader.blockSize : Int))
    ∧ (pull exactOps 2 demoIface 3 demoReader).2.processed.value
        = (pull exactOps 2 demoIface 3 demoReader).2.offset.value - 0
    ∧ totalCount (pull exactOps 2 demoIface 3 demoReader).1
        = (pull exactOps 2 demoIface 3 demoReader).2.offset.value - 0
    ∧ ((allFrames (pull exactOps 2 demoIface 3 demoReader).1).length : Int)
        = (pull exactOps 2 demoIface 3 demoReader).2.offset.value - 0
    ∧ (∀ j c : Nat, j < (allFrames (pull exactOps 2 demoIface 3 demoReader).1).length →
        c < demoReader.channels →
        ∃ v, sampleAt demoReader c ((0 : Int).toNat + j) = some v
          ∧ frameAt (allFrames (pull exactOps 2 demoIface 3 demoReader).1) j c
              = some (exactOps.narrow v))
    ∧ (∀ (j : Nat) (n : Int),
        ((pull exactOps 2 demoIface 3 demoReader).1.map Prod.fst)[j]? = some n →
        0 ≤ n ∧ ((pull exactOps 2 demoIface j demoReader).2.offset.value
          = demoReader.end_.value → n = 0))
    ∧ (demoReader.end_.value - 0 ≤ ((3 : Nat) : Int) * (demoReader.blockSize : Int) →
        totalCount (pull exactOps 2 demoIface 3 demoReader).1 = demoReader.end_.value - 0
        ∧ ((allFrames (pull exactOps 2 demoIface 3 demoReader).1).length : Int)
            = demoReader.end_.value - 0) :=
  pull_delivers_in_order exactOps 2 demoIface demoReader 0 3 (by decide) (by decide) (by decide)
    (by decide) (by decide) (by decide) (by decide) (by decide) (by decide) (by decide)
    (by decide)

/-- C10 as stated fails in two ways.  For `wideReader` (`offset = start = 0`,
`end = 1`, `processed = 0`, `blockSize = 2 ^ 63`) the first call returns
`-2 ^ 63` and moves the offset to `-2 ^ 63`, below `start`.  For `trioReader`
(three channels, `blockSize = 2`, `end = 2`) with the two-float frames of the
SBSMS library the one call that reaches `end` delivers the frames `1 4 2` and
`2 5 8`: channel 2 of the first frame is 2, not the input sample 7. -/
theorem pull_delivery_counterexample :
    (wideReader.offset.value = 0 ∧ 0 ≤ wideReader.end_.value
      ∧ wideReader.processed.value = 0 ∧ 1 ≤ wideReader.blockSize
      ∧ totalCount (pull exactOps 2 demoIface 1 wideReader).1 = -2 ^ 63
      ∧ (pull exactOps 2 demoIface 1 wideReader).2.offset.value = -2 ^ 63
      ∧ ¬ (0 ≤ totalCount (pull exactOps 2 demoIface 1 wideReader).1
            ∧ wideReader.offset.value ≤ (pull exactOps 2 demoIface 1 wideReader).2.offset.value))
    ∧ (trioReader.offset.value = 0 ∧ 0 ≤ trioReader.end_.value
      ∧ trioReader.processed.value = 0 ∧ 1 ≤ trioReader.blockSize
      ∧ trioReader.blockSize < 2 ^ 63
      ∧ (pull exactOps 2 demoIface 1 trioReader).2.offset.value = trioReader.end_.value
      ∧ allFrames (pull exactOps 2 demoIface 1 trioReader).1 = [[1, 4, 2], [2, 5, 8]]
      ∧ sampleAt trioReader 2 0 = some 7
      ∧ frameAt (allFrames (pull exactOps 2 demoIface 1 trioReader).1) 0 2 = some 2
      ∧ ¬ (∀ j c : Nat, j < (allFrames (pull exactOps 2 demoIface 1 trioReader).1).length →
            c < trioReader.channels →
            ∃ v, sampleAt trioReader c ((0 : Int).toNat + j) = some v
              ∧ frameAt (allFrames (pull exactOps 2 demoIface 1 trioReader).1) j c
                  = some (exactOps.narrow v))) := by
  have hfr : allFrames (pull exactOps 2 demoIface 1 trioReader).1 = [[1, 4, 2], [2, 5, 8]] := by
    rfl
  refine ⟨by decide, by decide, by decide, by decide, by decide, by decide, by decide, hfr, rfl,
    by rw [hfr]; rfl, ?_⟩
  intro h
  obtain ⟨v, hv1, hv2⟩ := h 0 2 (by rw [hfr]; decide) (by decide)
  have h7 : sampleAt trioReader 2 ((0 : Int).toNat + 0) = some 7 := rfl
  rw [h7] at hv1
  cases hv1
  rw [hfr] at hv2
  have h2 : frameAt ([[1, 4, 2], [2, 5, 8]] : List (List ℚ)) 0 2 = some 2 := rfl
  rw [h2] at hv2
  have : (2 : ℚ) = exactOps.narrow 7 := by injection hv2
  have e : exactOps.narrow (7 : ℚ) = 7 := rfl
  rw [e] at this
  norm_num at this

end PullClaims

/-! ## The drain loop of `process` -/

section DrainClaims

variable {σ D F : Type}

/-- The number of frames the drain loop requests. -/
theorem drain_frames (sbOutCount pos : Int) (h0 : 0 ≤ pos) (h1 : pos < sbOutCount)
    (h2 : sbOutCount < 2 ^ 63) :
    (limitSampleBufferSize SBSMSOutBlockSize (sampleCount.ofLong (wrap64 (sbOutCount - pos))) : Int)
      = min 512 (sbOutCount - pos) := by
  have hw : wrap64 (sbOutCount - pos) = sbOutCount - pos :=
    wrap64_of_range _ (by omega) (by omega)
  unfold sampleCount.ofLong
  rw [hw, hw]
  have hb : SBSMSOutBlockSize < 2 ^ 63 := by decide
  rw [limitSampleBufferSize_cast SBSMSOutBlockSize _ hb (by omega) (by omega)]
  have : ((SBSMSOutBlockSize : Nat) : Int) = 512 := by decide
  rw [this]
  omega

theorem drainLoop_stop (fo : FloatOps D F) (w : Nat) (rd : OutReader σ F) (channelCount : Nat)
    (sbOutCount : Int) (fuel : Nat) (s : DrainState σ D F)
    (h : ¬ (s.pos < sbOutCount ∧ s.outputCount ≠ 0)) :
    drainLoop fo w rd channelCount sbOutCount fuel s = some ([], s) := by
  cases fuel with
  | zero => rw [drainLoop, if_neg h]
  | succ f => rw [drainLoop, if_neg h]

theorem drainLoop_step (fo : FloatOps D F) (w : Nat) (rd : OutReader σ F) (channelCount : Nat)
    (sbOutCount : Int) (fuel : Nat) (s : DrainState σ D F)
    (h : s.pos < sbOutCount ∧ s.outputCount ≠ 0) (frames : Nat) (cnt : Int)
    (ob : List F) (st : σ)
    (hf : limitSampleBufferSize SBSMSOutBlockSize
      (sampleCount.ofLong (wrap64 (sbOutCount - s.pos))) = frames)
    (hr : rd.read s.rs s.outBuf (wrap64 frames) = (cnt, ob, st)) :
    drainLoop fo w rd channelCount sbOutCount (fuel + 1) s =
      match drainLoop fo w rd channelCount sbOutCount fuel
          { pos := wrap64 (s.pos + cnt)
            outputCount := cnt
            outBuf := ob
            outputBuf := copyOut fo w channelCount s.pos cnt ob s.outputBuf
            rs := st } with
      | some (log, s2) => some (⟨s.pos, s.rs, s.outBuf, frames, cnt⟩ :: log, s2)
      | none => none := by
  rw [drainLoop, if_pos h]
  simp only [hf, hr]
  all_goals rfl

/-- The drain loop from any state with `0 <= pos <= sbOutCount`: it returns, and
the record of its passes is the sequence of reads of the resampler, each made
with the state and the block buffer the previous read left. -/
theorem drainLoop_general (fo : FloatOps D F) (w : Nat) (rd : OutReader σ F)
    (channelCount : Nat) (sbOutCount : Int) (hsb : sbOutCount < 2 ^ 63)
    (hrd : ∀ (st : σ) (ob : List F) (k : Int), 0 ≤ k →
      0 ≤ (rd.read st ob k).1 ∧ (rd.read st ob k).1 ≤ k)
    (fuel : Nat) (s : DrainState σ D F) (hp0 : 0 ≤ s.pos) (hp1 : s.pos ≤ sbOutCount)
    (hfuel : s.outputCount = 0 ∨ sbOutCount - s.pos < fuel) :
    ∃ log s1, drainLoop fo w rd channelCount sbOutCount fuel s = some (log, s1)
      ∧ (∀ it ∈ log, (it.frames : Int) = min 512 (sbOutCount - it.pos)
          ∧ it.outputCount = (rd.read it.rs it.outBuf (it.frames : Int)).1
          ∧ 0 ≤ it.pos ∧ it.pos < sbOutCount
          ∧ 0 ≤ it.outputCount ∧ it.pos + it.outputCount ≤ sbOutCount)
      ∧ (∀ it, log.head? = some it →
          it.pos = s.pos ∧ it.rs = s.rs ∧ it.outBuf = s.outBuf ∧ s.outputCount ≠ 0)
      ∧ (∀ (j : Nat) (it it1 : DrainIter σ F), log[j]? = some it → log[j + 1]? = some it1 →
          it.outputCount ≠ 0 ∧ it1.pos = it.pos + it.outputCount
          ∧ it1.rs = (rd.read it.rs it.outBuf (it.frames : Int)).2.2
          ∧ it1.outBuf = (rd.read it.rs it.outBuf (it.frames : Int)).2.1)
      ∧ (log = [] → s1 = s)
      ∧ (∀ it, log.getLast? = some it →
          s1.pos = it.pos + it.outputCount ∧ s1.outputCount = it.outputCount
          ∧ s1.rs = (rd.read it.rs it.outBuf (it.frames : Int)).2.2
          ∧ s1.outBuf = (rd.read it.rs it.outBuf (it.frames : Int)).2.1)
      ∧ 0 ≤ s1.pos ∧ s1.pos ≤ sbOutCount
      ∧ (s1.pos = sbOutCount ∨ s1.outputCount = 0) := by
  induction fuel generalizing s with
  | zero =>
    have hc : ¬ (s.pos < sbOutCount ∧ s.outputCount ≠ 0) := by
      rintro ⟨a, b⟩
      rcases hfuel with h | h
      · exact b h
      · simp only [Nat.cast_zero] at h; omega
    refine ⟨[], s, drainLoop_stop fo w rd channelCount sbOutCount 0 s hc, ?_, ?_, ?_,
      fun _ => rfl, ?_, hp0, hp1, ?_⟩
    · intro it hit; cases hit
    · intro it hit; cases hit
    · intro j it it1 hit; cases hit
    · intro it hit; cases hit
    · by_cases hz : s.outputCount = 0
      · exact Or.inr hz
      · left
        by_contra hne
        exact hc ⟨by omega, hz⟩
  | succ f ih =>
    by_cases hc : s.pos < sbOutCount ∧ s.outputCount ≠ 0
    · obtain ⟨hlt, hne⟩ := hc
      have hfr := drain_frames sbOutCount s.pos hp0 hlt hsb
      generalize hf : limitSampleBufferSize SBSMSOutBlockSize
        (sampleCount.ofLong (wrap64 (sbOutCount - s.pos))) = frames at hfr
      have hwf : wrap64 (frames : Int) = frames := wrap64_of_range _ (by omega) (by omega)
      have hread := hrd s.rs s.outBuf (frames : Int) (by omega)
      rcases hres : rd.read s.rs s.outBuf (frames : Int) with ⟨cnt, ob, st⟩
      rw [hres] at hread
      simp only [] at hread
      have hres1 : rd.read s.rs s.outBuf (wrap64 (frames : Int)) = (cnt, ob, st) := by
        rw [hwf]; exact hres
      have hwp : wrap64 (s.pos + cnt) = s.pos + cnt := wrap64_of_range _ (by omega) (by omega)
      have hfuel1 : cnt = 0 ∨ sbOutCount - (s.pos + cnt) < (f : Int) := by
        rcases hfuel with h | h
        · exact absurd h hne
        · by_cases hz : cnt = 0
          · exact Or.inl hz
          · right; push_cast at h; omega
      obtain ⟨log, s2, hrun, hlog, hhead, hchain, hnil, hlast, hq0, hq1, hend⟩ :=
        ih { pos := wrap64 (s.pos + cnt)
             outputCount := cnt
             outBuf := ob
             outputBuf := copyOut fo w channelCount s.pos cnt ob s.outputBuf
             rs := st }
          (by show 0 ≤ wrap64 (s.pos + cnt); rw [hwp]; omega)
          (by show wrap64 (s.pos + cnt) ≤ sbOutCount; rw [hwp]; omega)
          (by show cnt = 0 ∨ sbOutCount - wrap64 (s.pos + cnt) < (f : Int); rw [hwp]; exact hfuel1)
      refine ⟨⟨s.pos, s.rs, s.outBuf, frames, cnt⟩ :: log, s2, ?_, ?_, ?_, ?_, ?_, ?_,
        hq0, hq1, hend⟩
      · rw [drainLoop_step fo w rd channelCount sbOutCount f s ⟨hlt, hne⟩ frames cnt ob st hf
          hres1, hrun]
      · intro it hit
        rcases List.mem_cons.1 hit with h | h
        · subst h
          refine ⟨hfr, ?_, hp0, hlt, hread.1, by show s.pos + cnt ≤ sbOutCount; omega⟩
          show cnt = (rd.read s.rs s.outBuf (frames : Int)).1
          rw [hres]
        · exact hlog it h
      · intro it hit
        simp only [List.head?_cons, Option.some.injEq] at hit
        subst hit
        exact ⟨rfl, rfl, rfl, hne⟩
      · intro j it it1 hj hj1
        cases j with
        | zero =>
          simp only [List.getElem?_cons_zero, Option.some.injEq] at hj
          simp only [List.getElem?_cons_succ] at hj1
          subst hj
          have hh : log.head? = some it1 := by
            rw [List.head?_eq_getElem?]; exact hj1
          obtain ⟨a, b, c, d⟩ := hhead it1 hh
          refine ⟨d, ?_, ?_, ?_⟩
          · show it1.pos = s.pos + cnt
            rw [a]; exact hwp
          · show it1.rs = (rd.read s.rs s.outBuf (frames : Int)).2.2
            rw [hres, b]
          · show it1.outBuf = (rd.read s.rs s.outBuf (frames : Int)).2.1
            rw [hres, c]
        | succ j =>
          simp only [List.getElem?_cons_succ] at hj hj1
          exact hchain j it it1 hj hj1
      · intro h
        cases h
      · intro it hit
        cases hl : log with
        | nil =>
          rw [hl] at hit
          simp only [List.getLast?_singleton, Option.some.injEq] at hit
          subst hit
          have e := hnil hl
          rw [e]
          refine ⟨hwp, rfl, ?_, ?_⟩
          · show st = (rd.read s.rs s.outBuf (frames : Int)).2.2
            rw [hres]
          · show ob = (rd.read s.rs s.outBuf (frames : Int)).2.1
            rw [hres]
        | cons y ys =>
          rw [hl] at hit
          rw [List.getLast?_cons_cons] at hit
          rw [hl] at hlast
          exact hlast it hit
    · refine ⟨[], s, drainLoop_stop fo w rd channelCount sbOutCount (f + 1) s hc, ?_, ?_, ?_,
        fun _ => rfl, ?_, hp0, hp1, ?_⟩
      · intro it hit; cases hit
      · intro it hit; cases hit
      · intro j it it1 hit; cases hit
      · intro it hit; cases hit
      · by_cases hz : s.outputCount = 0
        · exact Or.inr hz
        · left
          by_contra hne
          exact hc ⟨by omega, hz⟩

/-- C8: for every predicted total `sbOutCount >= 0` and every second-stage reader
whose read returns a count between 0 and the requested count, the drain loop of
`process` (entered with `pos = 0`, `outputCount = -1`) terminates within
`sbOutCount + 1` passes.  Its passes are the reads of the resampler: the first
is made at `pos = 0` with the initial resampler state and block buffer, every
pass requests `min(512, sbOutCount - pos)` frames and records the count that
read returns, and the next pass starts at `pos` plus that count, with the state
and buffer that read left, and only after a count other than 0.  `pos` stays
at most `sbOutCount` (so every write index `i + pos` is below `sbOutCount`), and
the loop leaves with `pos = sbOutCount` or after a read that returned 0. -/
theorem drainLoop_terminates (fo : FloatOps D F) (w : Nat) (rd : OutReader σ F)
    (channelCount : Nat) (sbOutCount : Int) (s0 : DrainState σ D F) (fuel : Nat)
    (hsb0 : 0 ≤ sbOutCount) (hsb1 : sbOutCount < 2 ^ 63)
    (hrd : ∀ (st : σ) (ob : List F) (k : Int), 0 ≤ k →
      0 ≤ (rd.read st ob k).1 ∧ (rd.read st ob k).1 ≤ k)
    (hpos : s0.pos = 0) (hcnt : s0.outputCount = -1) (hfuel : sbOutCount < (fuel : Int)) :
    ∃ log s1, drainLoop fo w rd channelCount sbOutCount fuel s0 = some (log, s1)
      ∧ (∀ it ∈ log, (it.frames : Int) = min 512 (sbOutCount - it.pos)
          ∧ it.outputCount = (rd.read it.rs it.outBuf (it.frames : Int)).1
          ∧ 0 ≤ it.pos ∧ it.pos < sbOutCount
          ∧ 0 ≤ it.outputCount ∧ it.pos + it.outputCount ≤ sbOutCount
          ∧ (∀ i : Int, 0 ≤ i → i < it.outputCount → i + it.pos < sbOutCount))
      ∧ (∀ it, log.head? = some it → it.pos = 0 ∧ it.rs = s0.rs ∧ it.outBuf = s0.outBuf)
      ∧ (∀ (j : Nat) (it it1 : DrainIter σ F), log[j]? = some it → log[j + 1]? = some it1 →
          it.outputCount ≠ 0 ∧ it1.pos = it.pos + it.outputCount
          ∧ it1.rs = (rd.read it.rs it.outBuf (it.frames : Int)).2.2
          ∧ it1.outBuf = (rd.read it.rs it.outBuf (it.frames : Int)).2.1)
      ∧ (log = [] → sbOutCount = 0 ∧ s1.pos = 0 ∧ s1.rs = s0.rs)
      ∧ (∀ it, log.getLast? = some it →
          s1.pos = it.pos + it.outputCount
          ∧ s1.rs = (rd.read it.rs it.outBuf (it.frames : Int)).2.2)
      ∧ 0 ≤ s1.pos ∧ s1.pos ≤ sbOutCount
      ∧ (s1.pos = sbOutCount ∨ ∃ it, log.getLast? = some it ∧ it.outputCount = 0) := by
  obtain ⟨log, s1, hrun, hlog, hhead, hchain, hnil, hlast, h0, h1, hend⟩ :=
    drainLoop_general fo w rd channelCount sbOutCount hsb1 hrd fuel s0 (by omega) (by omega)
      (Or.inr (by omega))
  refine ⟨log, s1, hrun, ?_, ?_, hchain, ?_, ?_, h0, h1, ?_⟩
  · intro it hit
    obtain ⟨a, b, c, d, e, g⟩ := hlog it hit
    exact ⟨a, b, c, d, e, g, fun i _ hi => by omega⟩
  · intro it hit
    obtain ⟨a, b, c, -⟩ := hhead it hit
    exact ⟨by rw [a, hpos], b, c⟩
  · intro hl
    have e := hnil hl
    rw [e] at hend ⊢
    refine ⟨?_, hpos, rfl⟩
    omega
  · intro it hit
    obtain ⟨a, -, c, -⟩ := hlast it hit
    exact ⟨a, c⟩
  · rcases hend with h | h
    · exact Or.inl h
    · right
      cases hl : log.getLast? with
      | none =>
        have hnl : log = [] := List.getLast?_eq_none_iff.1 hl
        have e := hnil hnl
        rw [e] at h
        omega
      | some it =>
        obtain ⟨-, b, -, -⟩ := hlast it hl
        exact ⟨it, rfl, by rw [← b]; exact h⟩

/-- The reader `chunkReader` returns between 0 and the requested count. -/
theorem chunkReader_bounded (st : Nat) (ob : List ℚ) (k : Int) (hk : 0 ≤ k) :
    0 ≤ (chunkReader.read st ob k).1 ∧ (chunkReader.read st ob k).1 ≤ k := by
  show 0 ≤ min k 3 ∧ min k 3 ≤ k
  omega

/-- C8, the statement for `chunkReader` with seven predicted samples. -/
theorem drainLoop_terminates_witness :
    ∃ log s1, drainLoop exactOps 2 chunkReader 1 7 8 demoDrainState = some (log, s1)
      ∧ (∀ it ∈ log, (it.frames : Int) = min 512 (7 - it.pos)
          ∧ it.outputCount = (chunkReader.read it.rs it.outBuf (it.frames : Int)).1
          ∧ 0 ≤ it.pos ∧ it.pos < 7
          ∧ 0 ≤ it.outputCount ∧ it.pos + it.outputCount ≤ 7
          ∧ (∀ i : Int, 0 ≤ i → i < it.outputCount → i + it.pos < 7))
      ∧ (∀ it, log.head? = some it →
          it.pos = 0 ∧ it.rs = demoDrainState.rs ∧ it.outBuf = demoDrainState.outBuf)
      ∧ (∀ (j : Nat) (it it1 : DrainIter Nat ℚ), log[j]? = some it → log[j + 1]? = some it1 →
          it.outputCount ≠ 0 ∧ it1.pos = it.pos + it.outputCount
          ∧ it1.rs = (chunkReader.read it.rs it.outBuf (it.frames : Int)).2.2
          ∧ it1.outBuf = (chunkReader.read it.rs it.outBuf (it.frames : Int)).2.1)
      ∧ (log = [] → (7 : Int) = 0 ∧ s1.pos = 0 ∧ s1.rs = demoDrainState.rs)
      ∧ (∀ it, log.getLast? = some it →
          s1.pos = it.pos + it.outputCount
          ∧ s1.rs = (chunkReader.read it.rs it.outBuf (it.frames : Int)).2.2)
      ∧ 0 ≤ s1.pos ∧ s1.pos ≤ 7
      ∧ (s1.pos = 7 ∨ ∃ it, log.getLast? = some it ∧ it.outputCount = 0) :=
  drainLoop_terminates exactOps 2 chunkReader 1 7 demoDrainState 8 (by decide) (by decide)
    chunkReader_bounded rfl rfl (by decide)

end DrainClaims

/-! ## The output arrays of `process` -/

section TailLemmas

variable {σ D F : Type}

/-- A property kept by every step of a left fold is kept by the fold. -/
theorem foldl_preserves {α β : Type} (P : β → Prop) (f : β → α → β) (l : List α)
    (hstep : ∀ b x, x ∈ l → P b → P (f b x)) (b : β) (hb : P b) : P (l.foldl f b) := by
  induction l generalizing b with
  | nil => exact hb
  | cons x xs ih =>
    rw [List.foldl_cons]
    exact ih (fun b y hy hp => hstep b y (List.mem_cons_of_mem _ hy) hp) _
      (hstep b x (List.mem_cons_self _ _) hb)

theorem setSample_inner_length (b : List (List F)) (i c : Nat) (v : F) (j : Nat) :
    ((setSample b i c v)[j]?).map List.length = (b[j]?).map List.length := by
  by_cases hj : j = i
  · subst hj
    unfold setSample
    cases hb : b[j]? with
    | none => simp [hb]
    | some fr =>
      have hlt : j < b.length := by
        by_contra hcon
        rw [List.getElem?_eq_none (by omega)] at hb
        cases hb
      simp [List.getElem?_set, hlt]
  · rw [setSample_getElem?_ne b i c v j hj]

/-- The part of an array buffer one write leaves alone: the shape (number of
arrays and their lengths) and every element at another position. -/
theorem setOut_keeps (ob : List (List D)) (c : Nat) (j : Int) (v : D) :
    (setOut ob c j v).length = ob.length
    ∧ (∀ c1 : Nat, ((setOut ob c j v)[c1]?).map List.length = (ob[c1]?).map List.length)
    ∧ (∀ c1 j1 : Nat, (j1 : Int) ≠ j → frameAt (setOut ob c j v) c1 j1 = frameAt ob c1 j1) := by
  unfold setOut
  split
  · next h =>
    refine ⟨setSample_length _ _ _ _, fun c1 => setSample_inner_length _ _ _ _ _, ?_⟩
    intro c1 j1 hne
    rw [frameAt_setSample]
    have : ¬ (c1 = c ∧ j1 = j.toNat ∧ (frameAt ob c j.toNat).isSome = true) := by
      rintro ⟨-, h2, -⟩
      omega
    rw [if_neg this]
  · exact ⟨rfl, fun _ => rfl, fun _ _ _ => rfl⟩

/-- The copy loops keep the shape of the output arrays and write only at the
positions `pos`, ..., `pos + outputCount - 1`. -/
theorem copyOut_keeps (fo : FloatOps D F) (w : Nat) (channelCount : Nat) (pos cnt : Int)
    (outBuf : List F) (ob : List (List D))
    (hp0 : 0 ≤ pos) (hp1 : pos + cnt < 2 ^ 63) :
    (copyOut fo w channelCount pos cnt outBuf ob).length = ob.length
    ∧ (∀ c1 : Nat, ((copyOut fo w channelCount pos cnt outBuf ob)[c1]?).map List.length
        = (ob[c1]?).map List.length)
    ∧ (∀ c1 j1 : Nat, pos + cnt ≤ (j1 : Int) →
        frameAt (copyOut fo w channelCount pos cnt outBuf ob) c1 j1 = frameAt ob c1 j1) := by
  unfold copyOut
  apply foldl_preserves
    (fun ob1 : List (List D) => ob1.length = ob.length
      ∧ (∀ c1 : Nat, (ob1[c1]?).map List.length = (ob[c1]?).map List.length)
      ∧ (∀ c1 j1 : Nat, pos + cnt ≤ (j1 : Int) → frameAt ob1 c1 j1 = frameAt ob c1 j1))
  · intro b i hi hb
    apply foldl_preserves
      (fun ob1 : List (List D) => ob1.length = ob.length
        ∧ (∀ c1 : Nat, (ob1[c1]?).map List.length = (ob[c1]?).map List.length)
        ∧ (∀ c1 j1 : Nat, pos + cnt ≤ (j1 : Int) → frameAt ob1 c1 j1 = frameAt ob c1 j1))
    · intro b1 c _ hb1
      have hi1 : i < cnt.toNat := List.mem_range.1 hi
      have hw : wrap64 ((i : Int) + pos) = (i : Int) + pos :=
        wrap64_of_range _ (by omega) (by omega)
      split
      · next v _ =>
        obtain ⟨k1, k2, k3⟩ := setOut_keeps b1 c (wrap64 ((i : Int) + pos)) (fo.widen v)
        obtain ⟨m1, m2, m3⟩ := hb1
        refine ⟨by rw [k1, m1], fun c1 => by rw [k2, m2], fun c1 j1 hj => ?_⟩
        rw [k3 c1 j1 (by rw [hw]; omega), m3 c1 j1 hj]
      · exact hb1
    · exact hb
  · exact ⟨rfl, fun _ => rfl, fun _ _ _ => rfl⟩

/-- The drain loop never writes an output position at or above the final `pos`,
and keeps the shape of the output arrays. -/
theorem drainLoop_tail (fo : FloatOps D F) (w : Nat) (rd : OutReader σ F) (channelCount : Nat)
    (sbOutCount : Int) (hsb : sbOutCount < 2 ^ 63)
    (hrd : ∀ (st : σ) (ob : List F) (k : Int), 0 ≤ k →
      0 ≤ (rd.read st ob k).1 ∧ (rd.read st ob k).1 ≤ k)
    (fuel : Nat) (s : DrainState σ D F) (hp0 : 0 ≤ s.pos) (hp1 : s.pos ≤ sbOutCount)
    (log : List (DrainIter σ F)) (s1 : DrainState σ D F)
    (hrun : drainLoop fo w rd channelCount sbOutCount fuel s = some (log, s1)) :
    s.pos ≤ s1.pos
    ∧ s1.outputBuf.length = s.outputBuf.length
    ∧ (∀ c1 : Nat, (s1.outputBuf[c1]?).map List.length = (s.outputBuf[c1]?).map List.length)
    ∧ (∀ c1 j1 : Nat, s1.pos ≤ (j1 : Int) →
        frameAt s1.outputBuf c1 j1 = frameAt s.outputBuf c1 j1) := by
  induction fuel generalizing s log s1 with
  | zero =>
    by_cases hc : s.pos < sbOutCount ∧ s.outputCount ≠ 0
    · rw [drainLoop, if_pos hc] at hrun
      cases hrun
    · rw [drainLoop_stop fo w rd channelCount sbOutCount 0 s hc] at hrun
      cases hrun
      exact ⟨le_refl _, rfl, fun _ => rfl, fun _ _ _ => rfl⟩
  | succ f ih =>
    by_cases hc : s.pos < sbOutCount ∧ s.outputCount ≠ 0
    · obtain ⟨hlt, hne⟩ := hc
      have hfr := drain_frames sbOutCount s.pos hp0 hlt hsb
      generalize hf : limitSampleBufferSize SBSMSOutBlockSize
        (sampleCount.ofLong (wrap64 (sbOutCount - s.pos))) = frames at hfr
      have hwf : wrap64 (frames : Int) = frames := wrap64_of_range _ (by omega) (by omega)
      have hread := hrd s.rs s.outBuf (frames : Int) (by omega)
      rcases hres0 : rd.read s.rs s.outBuf (frames : Int) with ⟨cnt, ob, st⟩
      rw [hres0] at hread
      simp only [] at hread
      have hres : rd.read s.rs s.outBuf (wrap64 (frames : Int)) = (cnt, ob, st) := by
        rw [hwf]; exact hres0
      have hwp : wrap64 (s.pos + cnt) = s.pos + cnt := wrap64_of_range _ (by omega) (by omega)
      rw [drainLoop_step fo w rd channelCount sbOutCount f s ⟨hlt, hne⟩ frames cnt ob st hf hres]
        at hrun
      cases hrec : drainLoop fo w rd channelCount sbOutCount f
          { pos := wrap64 (s.pos + cnt)
            outputCount := cnt
            outBuf := ob
            outputBuf := copyOut fo w channelCount s.pos cnt ob s.outputBuf
            rs := st } with
      | none => rw [hrec] at hrun; cases hrun
      | some res =>
        obtain ⟨log2, s2⟩ := res
        rw [hrec] at hrun
        simp only [Option.some.injEq, Prod.mk.injEq] at hrun
        obtain ⟨-, rfl⟩ := hrun
        obtain ⟨a, b, c, d⟩ := ih _
          (by show 0 ≤ wrap64 (s.pos + cnt); rw [hwp]; omega)
          (by show wrap64 (s.pos + cnt) ≤ sbOutCount; rw [hwp]; omega) log2 s2 hrec
        obtain ⟨k1, k2, k3⟩ := copyOut_keeps fo w channelCount s.pos cnt ob s.outputBuf hp0
          (by omega)
        have a1 : s.pos + cnt ≤ s2.pos := by
          have : wrap64 (s.pos + cnt) ≤ s2.pos := a
          rw [hwp] at this
          exact this
        refine ⟨by omega, ?_, ?_, ?_⟩
        · exact b.trans k1
        · intro c1
          exact (c c1).trans (k2 c1)
        · intro c1 j1 hj
          exact (d c1 j1 hj).trans (k3 c1 j1 (by omega))
    · rw [drainLoop_stop fo w rd channelCount sbOutCount (f + 1) s hc] at hrun
      cases hrun
      exact ⟨le_refl _, rfl, fun _ => rfl, fun _ _ _ => rfl⟩

end TailLemmas

section TailClaims

variable {σ D F : Type}

theorem allocOutput_length (channelCount : Nat) (sbOutCount : Int) (heap : Nat → Nat → D) :
    (allocOutput channelCount sbOutCount heap).length = channelCount := by
  unfold allocOutput
  rw [List.length_map, List.length_range]

theorem allocOutput_getElem? (channelCount : Nat) (sbOutCount : Int) (heap : Nat → Nat → D)
    (c : Nat) (hc : c < channelCount) :
    (allocOutput channelCount sbOutCount heap)[c]?
      = some ((List.range sbOutCount.toNat).map (heap c)) := by
  unfold allocOutput
  rw [List.getElem?_map, List.getElem?_range hc]
  rfl

theorem frameAt_allocOutput (channelCount : Nat) (sbOutCount : Int) (heap : Nat → Nat → D)
    (c j : Nat) (hc : c < channelCount) (hj : j < sbOutCount.toNat) :
    frameAt (allocOutput channelCount sbOutCount heap) c j = some (heap c j) := by
  unfold frameAt
  rw [allocOutput_getElem? channelCount sbOutCount heap c hc]
  show ((List.range sbOutCount.toNat).map (heap c))[j]? = some (heap c j)
  rw [List.getElem?_map, List.getElem?_range hj]
  rfl

theorem frameAt_map_take (ob : List (List D)) (n c j : Nat) (hj : j < n) :
    frameAt (ob.map (fun ch => ch.take n)) c j = frameAt ob c j := by
  unfold frameAt
  rw [List.getElem?_map]
  cases ob[c]? with
  | none => rfl
  | some ch =>
    show (ch.take n)[j]? = ch[j]?
    rw [List.getElem?_take, if_pos hj]

theorem drainLoop_tail_from (fo : FloatOps D F) (w : Nat) (rd : OutReader σ F) (channelCount : Nat)
    (sbOutCount : Int) (hsb : sbOutCount < 2 ^ 63)
    (hrd : ∀ (st : σ) (ob : List F) (k : Int), 0 ≤ k →
      0 ≤ (rd.read st ob k).1 ∧ (rd.read st ob k).1 ≤ k)
    (fuel : Nat) (s : DrainState σ D F) (hp0 : 0 ≤ s.pos) (hp1 : s.pos ≤ sbOutCount)
    (ob0 : List (List D)) (hob : s.outputBuf = ob0)
    (log : List (DrainIter σ F)) (s1 : DrainState σ D F)
    (hrun : drainLoop fo w rd channelCount sbOutCount fuel s = some (log, s1)) :
    s1.outputBuf.length = ob0.length
    ∧ (∀ c1 : Nat, (s1.outputBuf[c1]?).map List.length = (ob0[c1]?).map List.length)
    ∧ (∀ c1 j1 : Nat, s1.pos ≤ (j1 : Int) → frameAt s1.outputBuf c1 j1 = frameAt ob0 c1 j1) := by
  subst hob
  exact (drainLoop_tail fo w rd channelCount sbOutCount hsb hrd fuel s hp0 hp1 log s1 hrun).2

/-- What the tail of `process` returns, for every reader that returns between 0
and the requested count: one array per channel, each of length `sbOutCount`,
and at every index from the final `pos` on the value the freshly allocated
array held there. -/
theorem processDrain_tail_is_heap (fo : FloatOps D F) (w : Nat) (rd : OutReader σ F)
    (channelCount : Nat)
    (sbOutCount : Int) (heap : Nat → Nat → D) (outBuf0 : List F) (rs0 : σ) (fuel : Nat)
    (hsb0 : 0 ≤ sbOutCount) (hsb1 : sbOutCount < 2 ^ 63)
    (hrd : ∀ (st : σ) (ob : List F) (k : Int), 0 ≤ k →
      0 ≤ (rd.read st ob k).1 ∧ (rd.read st ob k).1 ≤ k)
    (hfuel : sbOutCount < (fuel : Int)) :
    ∃ pos out, processDrain fo w rd channelCount sbOutCount heap outBuf0 rs0 fuel = some (pos, out)
      ∧ 0 ≤ pos ∧ pos ≤ sbOutCount
      ∧ out.length = channelCount
      ∧ (∀ c : Nat, c < channelCount → (out[c]?).map List.length = some sbOutCount.toNat)
      ∧ (∀ c j : Nat, c < channelCount → pos ≤ (j : Int) → (j : Int) < sbOutCount →
          frameAt out c j = some (heap c j)) := by
  obtain ⟨log, s1, hrun, -, -, -, -, -, h0, h1, -⟩ :=
    drainLoop_general fo w rd channelCount sbOutCount hsb1 hrd fuel
      { pos := 0
        outputCount := -1
        outBuf := outBuf0
        outputBuf := allocOutput channelCount sbOutCount heap
        rs := rs0 }
      (le_refl _) hsb0 (Or.inr (by show sbOutCount - 0 < (fuel : Int); omega))
  obtain ⟨t1, t2, t3⟩ :=
    drainLoop_tail_from fo w rd channelCount sbOutCount hsb1 hrd fuel _ (le_refl _) hsb0
      (allocOutput channelCount sbOutCount heap) rfl log s1 hrun
  refine ⟨s1.pos, s1.outputBuf.map (fun ch => ch.take sbOutCount.toNat), ?_, h0, h1, ?_, ?_, ?_⟩
  · unfold processDrain
    simp only [hrun]
  · rw [List.length_map, t1]
    exact allocOutput_length channelCount sbOutCount heap
  · intro c hc
    have hlen := t2 c
    rw [allocOutput_getElem? channelCount sbOutCount heap c hc] at hlen
    rw [List.getElem?_map]
    cases hch : s1.outputBuf[c]? with
    | none => rw [hch] at hlen; simp at hlen
    | some ch =>
      rw [hch] at hlen
      simp only [Option.map_some', List.length_map, List.length_range, Option.some.injEq] at hlen
      simp only [Option.map_some', List.length_take, Option.some.injEq]
      omega
  · intro c j hc hj1 hj2
    rw [frameAt_map_take _ _ _ _ (by omega), t3 c j hj1]
    exact frameAt_allocOutput channelCount sbOutCount heap c j hc (by omega)

/-- C7 (the code at the failing input): with one channel, two predicted samples,
a fresh array that holds 7 in both elements and a reader at end of stream, the
drain loop leaves with `pos = 0 < 2` and `process` returns the array `[7, 7]`,
not zeros. -/
theorem processDrain_returns_heap_tail :
    processDrain exactOps 2 stalledReader 1 2 (fun _ _ => (7 : ℚ)) [] () 3
      = some (0, [[7, 7]]) := by
  rfl

end TailClaims

end AudioBlob
